import Mathlib

/-!
Verification of the resource-accounting core of backend.ai-agent
(NUMA-aware CPU allocator, fractional-share accelerator allocator,
kernel resource spec serialization).

The implementation modules (`ai/backend/agent/resources.py`,
`ai/backend/agent/vendor/linux.py`, `ai/backend/agent/accelerator.py`)
are not present in the source tree; only their tests are.  All
definitions below are therefore modelled from the design
specification, as indicated by their doc comments.
-/

/-! ## Association-list helpers

Python dicts keyed by core id / device id are modelled as ordered
association lists (insertion order preserved, first binding wins). -/

/-- Value bound to key `k` in an association list, or `dflt` when absent
(first binding wins, like a Python dict with unique keys). -/
def lookupA {α : Type} [DecidableEq α] {β : Type} (dflt : β) : List (α × β) → α → β
  | [], _ => dflt
  | p :: rest, k => if p.1 = k then p.2 else lookupA dflt rest k

/-- Rebind key `k` to `v` in an association list (first binding only);
no-op when the key is absent, matching a Python dict update of an
existing key. -/
def setA {α : Type} [DecidableEq α] {β : Type} : List (α × β) → α → β → List (α × β)
  | [], _, _ => []
  | p :: rest, k, v => if p.1 = k then (p.1, v) :: rest else p :: setA rest k v

/-- The association list has a binding for key `k`. -/
def hasKeyA {α : Type} {β : Type} (l : List (α × β)) (k : α) : Prop :=
  ∃ p ∈ l, p.1 = k

/-- Sum of all bound values. -/
def valsSum {α : Type} (l : List (α × Int)) : Int :=
  (l.map Prod.snd).sum

theorem lookupA_setA_self {α : Type} [DecidableEq α] {β : Type} (dflt : β)
    (l : List (α × β)) (k : α) (v : β) (h : hasKeyA l k) :
    lookupA dflt (setA l k v) k = v := by
  induction l with
  | nil => rcases h with ⟨p, hp, _⟩; cases hp
  | cons p rest ih =>
    by_cases hpk : p.1 = k
    · simp [setA, hpk, lookupA]
    · rcases h with ⟨q, hq, hqk⟩
      rcases List.mem_cons.mp hq with h1 | h1
      · exact absurd (h1 ▸ hqk) hpk
      · simp only [setA, if_neg hpk, lookupA, if_neg hpk]
        exact ih ⟨q, h1, hqk⟩

theorem lookupA_setA_ne {α : Type} [DecidableEq α] {β : Type} (dflt : β)
    (l : List (α × β)) (k d : α) (v : β) (h : d ≠ k) :
    lookupA dflt (setA l k v) d = lookupA dflt l d := by
  induction l with
  | nil => simp [setA]
  | cons p rest ih =>
    have hkd : k ≠ d := Ne.symm h
    by_cases hpk : p.1 = k
    · have hpd : p.1 ≠ d := by rw [hpk]; exact hkd
      simp [setA, hpk, lookupA, hpd, hkd]
    · by_cases hpd : p.1 = d
      · simp [setA, hpk, lookupA, hpd, h, hkd]
      · simp [setA, hpk, lookupA, hpd, ih]

theorem hasKeyA_setA {α : Type} [DecidableEq α] {β : Type}
    (l : List (α × β)) (k d : α) (v : β) :
    hasKeyA (setA l k v) d ↔ hasKeyA l d := by
  induction l with
  | nil => simp [setA]
  | cons p rest ih =>
    by_cases hpk : p.1 = k
    · simp only [setA, if_pos hpk, hasKeyA]
      constructor
      · rintro ⟨q, hq, hqd⟩
        rcases List.mem_cons.mp hq with h1 | h1
        · exact ⟨p, List.mem_cons_self _ _, by rw [← hqd, h1]⟩
        · exact ⟨q, List.mem_cons_of_mem _ h1, hqd⟩
      · rintro ⟨q, hq, hqd⟩
        rcases List.mem_cons.mp hq with h1 | h1
        · exact ⟨(p.1, v), List.mem_cons_self _ _, by rw [h1] at hqd; exact hqd⟩
        · exact ⟨q, List.mem_cons_of_mem _ h1, hqd⟩
    · simp only [setA, if_neg hpk, hasKeyA]
      constructor
      · rintro ⟨q, hq, hqd⟩
        rcases List.mem_cons.mp hq with h1 | h1
        · exact ⟨q, h1 ▸ List.mem_cons_self _ _, hqd⟩
        · rcases ih.mp ⟨q, h1, hqd⟩ with ⟨r, hr, hrd⟩
          exact ⟨r, List.mem_cons_of_mem _ hr, hrd⟩
      · rintro ⟨q, hq, hqd⟩
        rcases List.mem_cons.mp hq with h1 | h1
        · exact ⟨q, h1 ▸ List.mem_cons_self _ _, hqd⟩
        · rcases ih.mpr ⟨q, h1, hqd⟩ with ⟨r, hr, hrd⟩
          exact ⟨r, List.mem_cons_of_mem _ hr, hrd⟩

theorem keys_setA {α : Type} [DecidableEq α] {β : Type}
    (l : List (α × β)) (k : α) (v : β) :
    (setA l k v).map Prod.fst = l.map Prod.fst := by
  induction l with
  | nil => simp [setA]
  | cons p rest ih =>
    by_cases hpk : p.1 = k
    · simp [setA, hpk]
    · simp [setA, hpk, ih]

theorem valsSum_setA {α : Type} [DecidableEq α]
    (l : List (α × Int)) (k : α) (δ : Int) (h : hasKeyA l k) :
    valsSum (setA l k (lookupA 0 l k + δ)) = valsSum l + δ := by
  induction l with
  | nil => rcases h with ⟨p, hp, _⟩; cases hp
  | cons p rest ih =>
    by_cases hpk : p.1 = k
    · simp only [setA, if_pos hpk, lookupA, if_pos hpk, valsSum, List.map_cons, List.sum_cons]
      ring
    · rcases h with ⟨q, hq, hqk⟩
      rcases List.mem_cons.mp hq with h1 | h1
      · exact absurd (h1 ▸ hqk) hpk
      · simp only [setA, if_neg hpk, lookupA, if_neg hpk, valsSum, List.map_cons, List.sum_cons]
        have := ih ⟨q, h1, hqk⟩
        simp only [valsSum] at this
        rw [this]; ring

/-! ## Topology provider (`vendor/linux.py`, modelled from the spec) -/

/-- Modelled from the spec: `libnuma.num_nodes` of the topology provider
(`ai/backend/agent/vendor/linux.py`, absent from the source tree) returns
the host NUMA node count when NUMA is supported and 1 otherwise. -/
def libnuma.num_nodes (numa_supported : Bool) (native_num_nodes : Nat) : Nat :=
  if numa_supported then native_num_nodes else 1

/-- Modelled from the spec: `libnuma.node_of_cpu` of the topology provider
(`ai/backend/agent/vendor/linux.py`, absent from the source tree) returns
the node owning the core when NUMA is supported and 0 otherwise. -/
def libnuma.node_of_cpu (numa_supported : Bool) (native_node_of_cpu : Nat → Nat)
    (core_id : Nat) : Nat :=
  if numa_supported then native_node_of_cpu core_id else 0

/-! ## CPU allocator (`CPUAllocMap`, modelled from the spec)

`core_topo` is the per-node ordered list of core ids.  `alloc_per_node`
is indexed positionally by node id (the Python dict has keys
`0 .. num_nodes-1`).  Each per-node entry of `core_shares` is an ordered
association list core id → share count, mirroring the Python dict built
in topology order. -/

/-- Modelled from the spec: the `CPUAllocMap` state of
`ai/backend/agent/resources.py` (absent from the source tree). -/
structure CPUAllocMap where
  core_topo : List (List Nat)
  alloc_per_node : List Int
  core_shares : List (List (Nat × Int))
deriving DecidableEq

/-- Modelled from the spec: `CPUAllocMap` construction zero-initializes
`alloc_per_node` and `core_shares` for every node/core of the topology. -/
def CPUAllocMap.init (topo : List (List Nat)) : CPUAllocMap :=
  { core_topo := topo
    alloc_per_node := topo.map (fun _ => 0)
    core_shares := topo.map (fun l => l.map (fun c => (c, 0))) }

/-- Position of the first minimal value in a list of `Int`s
(ties broken by the earliest position). -/
def argminIdx : List Int → Nat
  | [] => 0
  | [_] => 0
  | x :: y :: ys =>
    let j := argminIdx (y :: ys)
    if (y :: ys).getD j 0 < x then j + 1 else 0

/-- Position of the first binding with a minimal bound value
(ties broken by the earliest position). -/
def argminPos : List (Nat × Int) → Nat
  | [] => 0
  | [_] => 0
  | p :: q :: qs =>
    let j := argminPos (q :: qs)
    if ((q :: qs).getD j (0, 0)).2 < p.2 then j + 1 else 0

/-- Increment the value of the binding at position `i` (no-op out of range). -/
def incrPos (xs : List (Nat × Int)) (i : Nat) : List (Nat × Int) :=
  xs.set i ((xs.getD i (0, 0)).1, (xs.getD i (0, 0)).2 + 1)

/-- Modelled from the spec: distribute `n` core-slots one at a time, each
to the binding currently holding the fewest shares, ties broken by the
earliest position in the node's topology list. -/
def distribute (xs : List (Nat × Int)) : Nat → List (Nat × Int)
  | 0 => xs
  | n + 1 => distribute (incrPos xs (argminPos xs)) n

/-- Core ids whose share count grew between two parallel per-node share
lists (same keys in the same order): the distinct cores touched by one
`alloc` call, in topology order. -/
def touchedCores : List (Nat × Int) → List (Nat × Int) → List Nat
  | p :: ps, q :: qs =>
    if p.2 < q.2 then q.1 :: touchedCores ps qs else touchedCores ps qs
  | _, _ => []

/-- Modelled from the spec: `CPUAllocMap.alloc(n)` selects the node with
the smallest `alloc_per_node` (ties to the smallest node id), distributes
`n` slots one at a time to the least-loaded cores of that node,
increments the counters, and returns the node id with the set of
distinct touched cores.  A node with zero cores can still pathologically
receive slots (the spec flags this boundary case explicitly). -/
def CPUAllocMap.alloc (m : CPUAllocMap) (n : Nat) : (Nat × List Nat) × CPUAllocMap :=
  let node := argminIdx m.alloc_per_node
  let counts := m.core_shares.getD node []
  let counts2 := distribute counts n
  ((node, touchedCores counts counts2),
   { m with
      alloc_per_node :=
        m.alloc_per_node.set node (m.alloc_per_node.getD node 0 + (n : Int))
      core_shares := m.core_shares.set node counts2 })

/-- First node whose topology list contains core `c` (the topology-derived
`node_of_cpu`); returns the node count when the core is unknown. -/
def nodeOfCore (topo : List (List Nat)) (c : Nat) : Nat :=
  match topo with
  | [] => 0
  | l :: rest => if c ∈ l then 0 else nodeOfCore rest c + 1

/-- Modelled from the spec: releasing one slot of core `c`: resolve its
node via `node_of_cpu`, decrement that core's share count by exactly 1
and that node's `alloc_per_node` by 1. -/
def CPUAllocMap.freeCore (m : CPUAllocMap) (c : Nat) : CPUAllocMap :=
  let k := nodeOfCore m.core_topo c
  let counts := m.core_shares.getD k []
  { m with
      alloc_per_node := m.alloc_per_node.set k (m.alloc_per_node.getD k 0 - 1)
      core_shares := m.core_shares.set k (setA counts c (lookupA 0 counts c - 1)) }

/-- Modelled from the spec: `CPUAllocMap.free(core_set)` releases one slot
per listed core (the core set is a list of distinct cores). -/
def CPUAllocMap.free (m : CPUAllocMap) (cs : List Nat) : CPUAllocMap :=
  cs.foldl CPUAllocMap.freeCore m

/-- Structural shape of a `CPUAllocMap`: counter shapes match the
topology.  Every state the Python constructor can build satisfies this,
and `alloc`/`free` preserve it. -/
structure CPUAllocMap.Shaped (m : CPUAllocMap) : Prop where
  apn_len : m.alloc_per_node.length = m.core_topo.length
  cs_len : m.core_shares.length = m.core_topo.length
  keys : ∀ j, (m.core_shares.getD j []).map Prod.fst = m.core_topo.getD j []

/-- The bookkeeping invariant: each node's `alloc_per_node` entry equals
the sum of that node's per-core share counts. -/
def CPUAllocMap.invariantHolds (m : CPUAllocMap) : Prop :=
  ∀ j, m.alloc_per_node.getD j 0 = valsSum (m.core_shares.getD j [])

/-! ## Node/core selection lemmas -/

theorem argminIdx_cons_cons (x y : Int) (ys : List Int) :
    argminIdx (x :: y :: ys) =
      if (y :: ys).getD (argminIdx (y :: ys)) 0 < x then argminIdx (y :: ys) + 1 else 0 := rfl

theorem argminIdx_lt_length (xs : List Int) (h : xs ≠ []) :
    argminIdx xs < xs.length := by
  induction xs with
  | nil => exact absurd rfl h
  | cons x t ih =>
    cases t with
    | nil => simp [argminIdx]
    | cons y ys =>
      rw [argminIdx_cons_cons]
      split
      · have := ih (by simp)
        simpa [Nat.succ_lt_succ_iff] using this
      · simp

theorem argminIdx_le (xs : List Int) (j : Nat) (hj : j < xs.length) :
    xs.getD (argminIdx xs) 0 ≤ xs.getD j 0 := by
  induction xs generalizing j with
  | nil => simp at hj
  | cons x t ih =>
    cases t with
    | nil =>
      cases j with
      | zero => simp [argminIdx]
      | succ i => simp at hj
    | cons y ys =>
      rw [argminIdx_cons_cons]
      split
      · rename_i hlt
        rw [List.getD_cons_succ]
        cases j with
        | zero => exact le_of_lt (by simpa using hlt)
        | succ i =>
          rw [List.getD_cons_succ]
          exact ih i (by simpa [Nat.succ_lt_succ_iff] using hj)
      · rename_i hge
        push_neg at hge
        rw [List.getD_cons_zero]
        cases j with
        | zero => simp
        | succ i =>
          rw [List.getD_cons_succ]
          exact le_trans hge (ih i (by simpa [Nat.succ_lt_succ_iff] using hj))

theorem argminIdx_first (xs : List Int) (j : Nat) (hj : j < argminIdx xs) :
    xs.getD (argminIdx xs) 0 < xs.getD j 0 := by
  induction xs generalizing j with
  | nil => simp [argminIdx] at hj
  | cons x t ih =>
    cases t with
    | nil => simp [argminIdx] at hj
    | cons y ys =>
      rw [argminIdx_cons_cons] at hj ⊢
      split
      · rename_i hlt
        rw [List.getD_cons_succ]
        rw [if_pos hlt] at hj
        cases j with
        | zero => simpa using hlt
        | succ i =>
          rw [List.getD_cons_succ]
          exact ih i (Nat.lt_of_succ_lt_succ hj)
      · rename_i hge
        rw [if_neg hge] at hj
        exact absurd hj (Nat.not_lt_zero j)

/-! ## Slot distribution lemmas -/

theorem length_incrPos (xs : List (Nat × Int)) (i : Nat) :
    (incrPos xs i).length = xs.length := by
  simp [incrPos]

theorem keys_incrPos (xs : List (Nat × Int)) (i : Nat) :
    (incrPos xs i).map Prod.fst = xs.map Prod.fst := by
  induction xs generalizing i with
  | nil => rfl
  | cons p t ih =>
    cases i with
    | zero => rfl
    | succ i =>
      simp only [incrPos, List.getD_cons_succ, List.set_cons_succ, List.map_cons]
      rw [show t.set i ((t.getD i (0, 0)).1, (t.getD i (0, 0)).2 + 1) = incrPos t i from rfl]
      rw [ih]

theorem valsSum_incrPos (xs : List (Nat × Int)) (i : Nat) (h : i < xs.length) :
    valsSum (incrPos xs i) = valsSum xs + 1 := by
  induction xs generalizing i with
  | nil => simp at h
  | cons p t ih =>
    cases i with
    | zero =>
      simp only [incrPos, List.getD_cons_zero, List.set_cons_zero, valsSum,
        List.map_cons, List.sum_cons]
      ring
    | succ i =>
      simp only [incrPos, List.getD_cons_succ, List.set_cons_succ, valsSum,
        List.map_cons, List.sum_cons]
      rw [show t.set i ((t.getD i (0, 0)).1, (t.getD i (0, 0)).2 + 1) = incrPos t i from rfl]
      have := ih i (Nat.lt_of_succ_lt_succ h)
      simp only [valsSum] at this
      rw [this]; ring

theorem getD_map_snd (xs : List (Nat × Int)) (j : Nat) (h : j < xs.length) :
    (xs.map Prod.snd).getD j 0 = (xs.getD j (0, 0)).2 := by
  rw [List.getD_eq_getElem _ _ (by simpa using h), List.getD_eq_getElem _ _ h,
    List.getElem_map]

theorem argminPos_eq_argminIdx (xs : List (Nat × Int)) :
    argminPos xs = argminIdx (xs.map Prod.snd) := by
  induction xs with
  | nil => rfl
  | cons p t ih =>
    cases t with
    | nil => rfl
    | cons q qs =>
      simp only [argminPos, argminIdx_cons_cons, List.map_cons] at ih ⊢
      rw [ih]
      have hlt : argminIdx (q.2 :: qs.map Prod.snd) < (q :: qs).length := by
        have := argminIdx_lt_length (q.2 :: qs.map Prod.snd) (by simp)
        simpa using this
      have hmap : ((q :: qs).map Prod.snd).getD (argminIdx (q.2 :: qs.map Prod.snd)) 0 =
          ((q :: qs).getD (argminIdx (q.2 :: qs.map Prod.snd)) (0, 0)).2 :=
        getD_map_snd _ _ hlt
      simp only [List.map_cons] at hmap
      rw [hmap]

theorem argminPos_lt_length (xs : List (Nat × Int)) (h : xs ≠ []) :
    argminPos xs < xs.length := by
  rw [argminPos_eq_argminIdx]
  have := argminIdx_lt_length (xs.map Prod.snd) (by simpa using h)
  simpa using this

theorem length_distribute (xs : List (Nat × Int)) (n : Nat) :
    (distribute xs n).length = xs.length := by
  induction n generalizing xs with
  | zero => rfl
  | succ n ih => rw [distribute, ih, length_incrPos]

theorem keys_distribute (xs : List (Nat × Int)) (n : Nat) :
    (distribute xs n).map Prod.fst = xs.map Prod.fst := by
  induction n generalizing xs with
  | zero => rfl
  | succ n ih => rw [distribute, ih, keys_incrPos]

theorem valsSum_distribute (xs : List (Nat × Int)) (n : Nat) (h : xs ≠ []) :
    valsSum (distribute xs n) = valsSum xs + n := by
  induction n generalizing xs with
  | zero => simp [distribute]
  | succ n ih =>
    rw [distribute, ih _ (by
      intro hc
      have := length_incrPos xs (argminPos xs)
      rw [hc] at this
      simp at this
      exact h (List.eq_nil_of_length_eq_zero this.symm))]
    rw [valsSum_incrPos xs _ (argminPos_lt_length xs h)]
    push_cast
    ring

/-! ## Claim C9: topology degradation without NUMA support -/

/-- C9: when NUMA support is unavailable on the host, the topology
provider degrades silently rather than failing: `num_nodes()` returns 1
and `node_of_cpu(core_id)` returns 0 for every core id. -/
theorem C9_numa_unsupported_fallback :
    (∀ native_num_nodes : Nat, libnuma.num_nodes false native_num_nodes = 1) ∧
    (∀ (native : Nat → Nat) (core_id : Nat),
      libnuma.node_of_cpu false native core_id = 0) :=
  ⟨fun _ => rfl, fun _ _ => rfl⟩

/-! ## Claim C7: deterministic node selection -/

/-- C7: `alloc(n)` targets the node with the smallest current
`alloc_per_node` value (the selected index attains the minimum, and
every smaller node id holds a strictly larger value, so ties break to
the smallest node id); in the concrete topology
`{0:[0,3], 1:[1], 2:[2]}` the call sequence
`alloc(3), alloc(2), alloc(3), alloc(4)` from the empty state returns
`(0, {0,3})`, `(1, {1})`, `(2, {2})`, `(1, {1})` in that order. -/
theorem C7_cpu_alloc_node_selection :
    (∀ (m : CPUAllocMap) (n : Nat), (m.alloc n).1.1 = argminIdx m.alloc_per_node) ∧
    (∀ (xs : List Int) (j : Nat), j < xs.length →
      xs.getD (argminIdx xs) 0 ≤ xs.getD j 0) ∧
    (∀ (xs : List Int) (j : Nat), j < argminIdx xs →
      xs.getD (argminIdx xs) 0 < xs.getD j 0) ∧
    (let m0 := CPUAllocMap.init [[0, 3], [1], [2]]
     let s1 := m0.alloc 3
     let s2 := s1.2.alloc 2
     let s3 := s2.2.alloc 3
     let s4 := s3.2.alloc 4
     s1.1 = (0, [0, 3]) ∧ s2.1 = (1, [1]) ∧ s3.1 = (2, [2]) ∧ s4.1 = (1, [1])) :=
  ⟨fun _ _ => rfl, argminIdx_le, argminIdx_first, by decide⟩

/-- Witness for C7: the minimality and strict-earlier-node facts applied
to the concrete load vector `[3, 1, 2]` (node 1 is selected: its load is
minimal and node 0's load is strictly larger). -/
theorem C7_cpu_alloc_node_selection_witness :
    ([3, 1, 2] : List Int).getD (argminIdx [3, 1, 2]) 0 ≤ ([3, 1, 2] : List Int).getD 2 0 ∧
    ([3, 1, 2] : List Int).getD (argminIdx [3, 1, 2]) 0 < ([3, 1, 2] : List Int).getD 0 0 :=
  ⟨C7_cpu_alloc_node_selection.2.1 [3, 1, 2] 2 (by decide),
   C7_cpu_alloc_node_selection.2.2.1 [3, 1, 2] 0 (by decide)⟩

/-! ## Per-position access lemmas -/

theorem getD_set_self {α : Type} (l : List α) (i : Nat) (x d : α) (h : i < l.length) :
    (l.set i x).getD i d = x := by
  induction l generalizing i with
  | nil => simp at h
  | cons a t ih =>
    cases i with
    | zero => rfl
    | succ i =>
      simp only [List.set_cons_succ, List.getD_cons_succ]
      exact ih i (Nat.lt_of_succ_lt_succ h)

theorem getD_set_ne {α : Type} (l : List α) (i j : Nat) (x d : α) (h : j ≠ i) :
    (l.set i x).getD j d = l.getD j d := by
  induction l generalizing i j with
  | nil => simp
  | cons a t ih =>
    cases i with
    | zero =>
      cases j with
      | zero => exact absurd rfl h
      | succ j => rfl
    | succ i =>
      cases j with
      | zero => rfl
      | succ j =>
        simp only [List.set_cons_succ, List.getD_cons_succ]
        exact ih i j (fun hc => h (by rw [hc]))

theorem getD_set_oob {α : Type} (l : List α) (i : Nat) (x d : α) (h : ¬ i < l.length) :
    (l.set i x).getD i d = d := by
  rw [List.set_eq_of_length_le (Nat.le_of_not_lt h)]
  exact List.getD_eq_default _ _ (Nat.le_of_not_lt h)

theorem incrPos_getD_self (xs : List (Nat × Int)) (a : Nat) (h : a < xs.length) :
    (incrPos xs a).getD a (0, 0) = ((xs.getD a (0, 0)).1, (xs.getD a (0, 0)).2 + 1) :=
  getD_set_self _ _ _ _ h

theorem incrPos_getD_ne (xs : List (Nat × Int)) (a i : Nat) (h : i ≠ a) :
    (incrPos xs a).getD i (0, 0) = xs.getD i (0, 0) :=
  getD_set_ne _ _ _ _ _ h

/-! ## Even distribution within a node -/

/-- The share counts of a per-node share list differ pairwise by at
most 1 (the maximally-even load shape). -/
def BalancedShares (xs : List (Nat × Int)) : Prop :=
  ∀ i < xs.length, ∀ j < xs.length,
    (xs.getD i (0, 0)).2 - (xs.getD j (0, 0)).2 ≤ 1

instance (xs : List (Nat × Int)) : Decidable (BalancedShares xs) := by
  unfold BalancedShares
  infer_instance

theorem argminPos_le (xs : List (Nat × Int)) (j : Nat) (hj : j < xs.length) :
    (xs.getD (argminPos xs) (0, 0)).2 ≤ (xs.getD j (0, 0)).2 := by
  have hx : xs ≠ [] := by
    intro hc; rw [hc] at hj; simp at hj
  have hmin : argminIdx (xs.map Prod.snd) < xs.length := by
    have := argminIdx_lt_length (xs.map Prod.snd) (by simpa using hx)
    simpa using this
  have h1 := argminIdx_le (xs.map Prod.snd) j (by simpa using hj)
  have e1 : (xs.map Prod.snd).getD j 0 = (xs.getD j (0, 0)).2 := getD_map_snd _ _ hj
  have e2 : (xs.map Prod.snd).getD (argminIdx (xs.map Prod.snd)) 0 =
      (xs.getD (argminIdx (xs.map Prod.snd)) (0, 0)).2 := getD_map_snd _ _ hmin
  rw [e1, e2] at h1
  rw [argminPos_eq_argminIdx]
  exact h1

theorem argminPos_first (xs : List (Nat × Int)) (j : Nat) (hj : j < argminPos xs) :
    (xs.getD (argminPos xs) (0, 0)).2 < (xs.getD j (0, 0)).2 := by
  have hx : xs ≠ [] := by
    intro hc; rw [hc] at hj; simp [argminPos] at hj
  have hlt := argminPos_lt_length xs hx
  have hjlen : j < xs.length := Nat.lt_trans hj hlt
  have hmin : argminIdx (xs.map Prod.snd) < xs.length := by
    rw [← argminPos_eq_argminIdx]; exact hlt
  have h1 := argminIdx_first (xs.map Prod.snd) j (by rwa [← argminPos_eq_argminIdx])
  have e1 : (xs.map Prod.snd).getD j 0 = (xs.getD j (0, 0)).2 := getD_map_snd _ _ hjlen
  have e2 : (xs.map Prod.snd).getD (argminIdx (xs.map Prod.snd)) 0 =
      (xs.getD (argminIdx (xs.map Prod.snd)) (0, 0)).2 := getD_map_snd _ _ hmin
  rw [e1, e2] at h1
  rw [argminPos_eq_argminIdx]
  exact h1

theorem balanced_incr_argmin (xs : List (Nat × Int)) (h : BalancedShares xs) :
    BalancedShares (incrPos xs (argminPos xs)) := by
  intro i hi j hj
  rw [length_incrPos] at hi hj
  have hx : xs ≠ [] := by
    intro hc; rw [hc] at hi; simp at hi
  have halt : argminPos xs < xs.length := argminPos_lt_length xs hx
  by_cases hia : i = argminPos xs
  · by_cases hja : j = argminPos xs
    · rw [hia, hja]; omega
    · rw [hia, incrPos_getD_self xs _ halt, incrPos_getD_ne xs _ j hja]
      have := argminPos_le xs j hj
      omega
  · by_cases hja : j = argminPos xs
    · rw [hja, incrPos_getD_self xs _ halt, incrPos_getD_ne xs _ i hia]
      have := h i hi (argminPos xs) halt
      omega
    · rw [incrPos_getD_ne xs _ i hia, incrPos_getD_ne xs _ j hja]
      exact h i hi j hj

theorem balanced_distribute (xs : List (Nat × Int)) (n : Nat) (h : BalancedShares xs) :
    BalancedShares (distribute xs n) := by
  induction n generalizing xs with
  | zero => exact h
  | succ n ih => exact ih _ (balanced_incr_argmin xs h)

/-! ## Claim C8: maximally even slot distribution (corrected) -/

/-- Counterexample to C8 as stated: in the state with one node of two
cores whose share counts are 0 and 5 (such a shape is produced by
repeated `free` calls on one core), a single `alloc(1)` leaves the
receiving node with core loads 1 and 5, whose difference exceeds 1. -/
theorem C8_cpu_alloc_even_counterexample :
    (let m : CPUAllocMap := ⟨[[0, 1]], [5], [[(0, 0), (1, 5)]]⟩
     let r := m.alloc 1
     ((r.2.core_shares.getD r.1.1 []).getD 1 (0, 0)).2 -
       ((r.2.core_shares.getD r.1.1 []).getD 0 (0, 0)).2 > 1) := by
  decide

/-- C8 amended: if before the call the receiving node's core share
counts differ pairwise by at most 1 (as in every state produced by
`alloc` calls alone from the zero state), then after any single
`alloc(n)` they still differ by at most 1; and each of the `n` slots is
assigned one at a time to the core currently holding the fewest shares
within the node, ties broken by the earliest position in the node's
topology list (the chosen position attains the minimum share count and
strictly undercuts every earlier position). -/
theorem C8_cpu_alloc_even_distribution :
    (∀ (m : CPUAllocMap) (n : Nat),
      BalancedShares (m.core_shares.getD (argminIdx m.alloc_per_node) []) →
      BalancedShares ((m.alloc n).2.core_shares.getD ((m.alloc n).1.1) [])) ∧
    (∀ (xs : List (Nat × Int)) (n : Nat),
      distribute xs (n + 1) = distribute (incrPos xs (argminPos xs)) n) ∧
    (∀ (xs : List (Nat × Int)) (j : Nat), j < xs.length →
      (xs.getD (argminPos xs) (0, 0)).2 ≤ (xs.getD j (0, 0)).2) ∧
    (∀ (xs : List (Nat × Int)) (j : Nat), j < argminPos xs →
      (xs.getD (argminPos xs) (0, 0)).2 < (xs.getD j (0, 0)).2) := by
  refine ⟨?_, fun xs n => rfl, argminPos_le, argminPos_first⟩
  intro m n hbal
  simp only [CPUAllocMap.alloc]
  by_cases hk : argminIdx m.alloc_per_node < m.core_shares.length
  · rw [getD_set_self _ _ _ _ hk]
    exact balanced_distribute _ n hbal
  · rw [getD_set_oob _ _ _ _ hk]
    intro i hi
    simp at hi

/-- Witness for C8: on the topology with one node of cores `[0, 1]`,
starting from the zero state (which is balanced), `alloc(3)` leaves the
receiving node balanced. -/
theorem C8_cpu_alloc_even_distribution_witness :
    BalancedShares (((CPUAllocMap.init [[0, 1]]).alloc 3).2.core_shares.getD
      (((CPUAllocMap.init [[0, 1]]).alloc 3).1.1) []) :=
  C8_cpu_alloc_even_distribution.1 (CPUAllocMap.init [[0, 1]]) 3 (by decide)

/-! ## Claim C6: the alloc_per_node / core_shares bookkeeping invariant -/

/-- States reachable from the zero-initialized construction state over a
fixed topology by `alloc` calls and by `free` calls whose core sets name
cores of the topology (a `free` naming an unknown core is a fatal
invariant violation per the spec and is excluded). -/
inductive CPUReachable (topo : List (List Nat)) : CPUAllocMap → Prop
  | init : CPUReachable topo (CPUAllocMap.init topo)
  | alloc (m : CPUAllocMap) (n : Nat) :
      CPUReachable topo m → 1 ≤ n → CPUReachable topo ((m.alloc n).2)
  | free (m : CPUAllocMap) (cs : List Nat) :
      CPUReachable topo m → (∀ c ∈ cs, ∃ l ∈ topo, c ∈ l) →
      CPUReachable topo (m.free cs)

theorem topo_alloc (m : CPUAllocMap) (n : Nat) :
    ((m.alloc n).2).core_topo = m.core_topo := rfl

theorem topo_freeCore (m : CPUAllocMap) (c : Nat) :
    (m.freeCore c).core_topo = m.core_topo := rfl

theorem topo_free (m : CPUAllocMap) (cs : List Nat) :
    (m.free cs).core_topo = m.core_topo := by
  induction cs generalizing m with
  | nil => rfl
  | cons c rest ih => exact (ih (m.freeCore c)).trans (topo_freeCore m c)

theorem nodeOfCore_spec (topo : List (List Nat)) (c : Nat)
    (h : ∃ l ∈ topo, c ∈ l) :
    nodeOfCore topo c < topo.length ∧ c ∈ topo.getD (nodeOfCore topo c) [] := by
  induction topo with
  | nil => rcases h with ⟨l, hl, _⟩; cases hl
  | cons l rest ih =>
    by_cases hc : c ∈ l
    · refine ⟨?_, ?_⟩
      · simp [nodeOfCore, hc]
      · simp [nodeOfCore, hc]
    · have hrest : ∃ l0 ∈ rest, c ∈ l0 := by
        rcases h with ⟨l0, hl0, hcl0⟩
        rcases List.mem_cons.mp hl0 with h1 | h1
        · exact absurd (h1 ▸ hcl0) hc
        · exact ⟨l0, h1, hcl0⟩
      rcases ih hrest with ⟨hlt, hmem⟩
      refine ⟨?_, ?_⟩
      · simp only [nodeOfCore, if_neg hc, List.length_cons]
        omega
      · simpa [nodeOfCore, hc] using hmem

theorem shaped_init (topo : List (List Nat)) : (CPUAllocMap.init topo).Shaped := by
  refine ⟨by simp [CPUAllocMap.init], by simp [CPUAllocMap.init], ?_⟩
  intro j
  by_cases hj : j < topo.length
  · simp only [CPUAllocMap.init]
    rw [List.getD_eq_getElem _ _ (by simpa using hj), List.getD_eq_getElem _ _ hj,
      List.getElem_map]
    rw [List.map_map, show (Prod.fst ∘ fun c : Nat => (c, (0 : Int))) = id from rfl,
      List.map_id]
  · simp only [CPUAllocMap.init]
    rw [List.getD_eq_default _ _ (by simpa using Nat.le_of_not_lt hj),
      List.getD_eq_default _ _ (Nat.le_of_not_lt hj)]
    rfl

theorem inv_init (topo : List (List Nat)) : (CPUAllocMap.init topo).invariantHolds := by
  intro j
  by_cases hj : j < topo.length
  · simp only [CPUAllocMap.init]
    rw [List.getD_eq_getElem _ _ (by simpa using hj),
      List.getD_eq_getElem _ _ (by simpa using hj)]
    simp only [List.getElem_map]
    simp [valsSum, List.map_map, Function.comp]
    exact (List.sum_eq_zero (by simp)).symm
  · simp only [CPUAllocMap.init]
    rw [List.getD_eq_default _ _ (by simpa using Nat.le_of_not_lt hj),
      List.getD_eq_default _ _ (by simpa using Nat.le_of_not_lt hj)]
    rfl

theorem shaped_alloc (m : CPUAllocMap) (n : Nat) (hs : m.Shaped) :
    ((m.alloc n).2).Shaped := by
  refine ⟨by simpa [CPUAllocMap.alloc] using hs.apn_len,
          by simpa [CPUAllocMap.alloc] using hs.cs_len, ?_⟩
  intro j
  simp only [CPUAllocMap.alloc]
  by_cases hjk : j = argminIdx m.alloc_per_node
  · rw [← hjk]
    by_cases hk : j < m.core_shares.length
    · rw [getD_set_self _ _ _ _ hk, keys_distribute]
      exact hs.keys j
    · rw [List.set_eq_of_length_le (Nat.le_of_not_lt hk)]
      exact hs.keys j
  · rw [getD_set_ne _ _ _ _ _ hjk]
    exact hs.keys j

theorem inv_alloc (m : CPUAllocMap) (n : Nat) (hs : m.Shaped)
    (htopo : ∀ l ∈ m.core_topo, l ≠ []) (hinv : m.invariantHolds) :
    ((m.alloc n).2).invariantHolds := by
  intro j
  simp only [CPUAllocMap.alloc]
  by_cases hjk : j = argminIdx m.alloc_per_node
  · rw [← hjk]
    by_cases hk : j < m.alloc_per_node.length
    · have hkcs : j < m.core_shares.length := by
        rw [hs.cs_len, ← hs.apn_len]; exact hk
      have hktopo : j < m.core_topo.length := by
        rw [← hs.apn_len]; exact hk
      rw [getD_set_self _ _ _ _ hk, getD_set_self _ _ _ _ hkcs]
      have hne : m.core_shares.getD j [] ≠ [] := by
        intro hc
        have hkeys := hs.keys j
        rw [hc] at hkeys
        have : m.core_topo.getD j [] ∈ m.core_topo := by
          rw [List.getD_eq_getElem _ _ hktopo]
          exact List.getElem_mem _
        exact htopo _ this (by rw [← hkeys]; rfl)
      rw [valsSum_distribute _ n hne, hinv j]
    · have hkcs : ¬ j < m.core_shares.length := by
        rw [hs.cs_len, ← hs.apn_len]; exact hk
      rw [List.set_eq_of_length_le (Nat.le_of_not_lt hk),
        List.set_eq_of_length_le (Nat.le_of_not_lt hkcs)]
      exact hinv j
  · rw [getD_set_ne _ _ _ _ _ hjk, getD_set_ne _ _ _ _ _ hjk]
    exact hinv j

theorem shaped_freeCore (m : CPUAllocMap) (c : Nat) (hs : m.Shaped) :
    (m.freeCore c).Shaped := by
  refine ⟨by simpa [CPUAllocMap.freeCore] using hs.apn_len,
          by simpa [CPUAllocMap.freeCore] using hs.cs_len, ?_⟩
  intro j
  simp only [CPUAllocMap.freeCore]
  by_cases hjk : j = nodeOfCore m.core_topo c
  · rw [← hjk]
    by_cases hk : j < m.core_shares.length
    · rw [getD_set_self _ _ _ _ hk, keys_setA]
      exact hs.keys j
    · rw [List.set_eq_of_length_le (Nat.le_of_not_lt hk)]
      exact hs.keys j
  · rw [getD_set_ne _ _ _ _ _ hjk]
    exact hs.keys j

theorem inv_freeCore (m : CPUAllocMap) (c : Nat) (hs : m.Shaped)
    (hc : ∃ l ∈ m.core_topo, c ∈ l) (hinv : m.invariantHolds) :
    (m.freeCore c).invariantHolds := by
  intro j
  rcases nodeOfCore_spec m.core_topo c hc with ⟨hlt, hmem⟩
  simp only [CPUAllocMap.freeCore]
  by_cases hjk : j = nodeOfCore m.core_topo c
  · rw [← hjk]
    rw [← hjk] at hlt hmem
    have hkapn : j < m.alloc_per_node.length := by rw [hs.apn_len]; exact hlt
    have hkcs : j < m.core_shares.length := by rw [hs.cs_len]; exact hlt
    rw [getD_set_self _ _ _ _ hkapn, getD_set_self _ _ _ _ hkcs]
    have hkey : hasKeyA (m.core_shares.getD j []) c := by
      have hkeys := hs.keys j
      have : c ∈ (m.core_shares.getD j []).map Prod.fst := by rw [hkeys]; exact hmem
      rcases List.mem_map.mp this with ⟨p, hp, hpc⟩
      exact ⟨p, hp, hpc⟩
    have := valsSum_setA (m.core_shares.getD j []) c (-1) hkey
    rw [show lookupA 0 (m.core_shares.getD j []) c + (-1) =
      lookupA 0 (m.core_shares.getD j []) c - 1 by ring] at this
    rw [this, hinv j]
    ring
  · rw [getD_set_ne _ _ _ _ _ hjk, getD_set_ne _ _ _ _ _ hjk]
    exact hinv j

theorem shaped_inv_free (m : CPUAllocMap) (cs : List Nat) (hs : m.Shaped)
    (hc : ∀ c ∈ cs, ∃ l ∈ m.core_topo, c ∈ l) (hinv : m.invariantHolds) :
    (m.free cs).Shaped ∧ (m.free cs).invariantHolds := by
  induction cs generalizing m with
  | nil => exact ⟨hs, hinv⟩
  | cons c rest ih =>
    have hc0 : ∃ l ∈ m.core_topo, c ∈ l := hc c (List.mem_cons_self _ _)
    have hs1 := shaped_freeCore m c hs
    have hinv1 := inv_freeCore m c hs hc0 hinv
    have hcrest : ∀ x ∈ rest, ∃ l ∈ (m.freeCore c).core_topo, x ∈ l := by
      intro x hx
      rw [topo_freeCore]
      exact hc x (List.mem_cons_of_mem _ hx)
    exact ih (m.freeCore c) hs1 hcrest hinv1

/-- Counterexample to C6 as stated: with the topology `[[], [0]]`
(node 0 has no available cores — a shape the topology provider can
produce), the state reached from the zero-initialized construction by
the single call `alloc(1)` violates the invariant at node 0: the slot is
recorded in `alloc_per_node[0]` while node 0 has no core share to carry
it. -/
theorem C6_cpu_invariant_counterexample :
    CPUReachable [[], [0]] (((CPUAllocMap.init [[], [0]]).alloc 1).2) ∧
    ((CPUAllocMap.init [[], [0]]).alloc 1).2.alloc_per_node.getD 0 0 ≠
      valsSum (((CPUAllocMap.init [[], [0]]).alloc 1).2.core_shares.getD 0 []) :=
  ⟨CPUReachable.alloc _ 1 CPUReachable.init (le_refl 1), by decide⟩

/-- C6 amended: over a topology in which every NUMA node has at least
one core, every state reachable from the zero-initialized construction
state by `alloc` calls and by `free` calls naming cores of the topology
satisfies `alloc_per_node[node] == sum(core_shares[node].values())` for
every node; both `alloc` and `free` preserve this equality. -/
theorem C6_cpu_invariant :
    ∀ (topo : List (List Nat)) (m : CPUAllocMap),
      (∀ l ∈ topo, l ≠ []) → CPUReachable topo m → m.invariantHolds := by
  intro topo m htopo hreach
  suffices h : m.core_topo = topo ∧ m.Shaped ∧ m.invariantHolds from h.2.2
  induction hreach with
  | init => exact ⟨rfl, shaped_init topo, inv_init topo⟩
  | alloc m0 n _ _ ih =>
    rcases ih with ⟨htp, hs, hinv⟩
    exact ⟨htp, shaped_alloc m0 n hs,
      inv_alloc m0 n hs (by rw [htp]; exact htopo) hinv⟩
  | free m0 cs _ hvalid ih =>
    rcases ih with ⟨htp, hs, hinv⟩
    have hc : ∀ c ∈ cs, ∃ l ∈ m0.core_topo, c ∈ l := by
      intro c hcm
      rw [htp]
      exact hvalid c hcm
    rcases shaped_inv_free m0 cs hs hc hinv with ⟨hs2, hinv2⟩
    exact ⟨(topo_free m0 cs).trans htp, hs2, hinv2⟩

/-- Witness for C6: over the one-node topology `[[0, 1]]`, the state
after `alloc(2)` followed by `free({0})` satisfies the invariant. -/
theorem C6_cpu_invariant_witness :
    ((((CPUAllocMap.init [[0, 1]]).alloc 2).2.free [0]).invariantHolds) :=
  C6_cpu_invariant [[0, 1]] _ (by decide)
    (CPUReachable.free _ [0]
      (CPUReachable.alloc _ 2 CPUReachable.init (by decide))
      (by
        intro c hcm
        rcases List.mem_singleton.mp hcm with rfl
        exact ⟨[0, 1], List.mem_singleton.mpr rfl, List.mem_cons_self _ _⟩))

/-! ## Claim C3: alloc followed by free, supporting lemmas -/

theorem set_getD_eq_self {α : Type} (l : List α) (i : Nat) (d : α) (h : i < l.length) :
    l.set i (l.getD i d) = l := by
  induction l generalizing i with
  | nil => simp at h
  | cons a t ih =>
    cases i with
    | zero => rfl
    | succ i =>
      simp only [List.getD_cons_succ, List.set_cons_succ]
      rw [ih i (Nat.lt_of_succ_lt_succ h)]

theorem incrPos_getD_ge (xs : List (Nat × Int)) (a i : Nat) :
    (xs.getD i (0, 0)).2 ≤ ((incrPos xs a).getD i (0, 0)).2 := by
  by_cases hia : i = a
  · rw [hia]
    by_cases ha : a < xs.length
    · rw [incrPos_getD_self xs a ha]
      simp
    · unfold incrPos
      rw [List.set_eq_of_length_le (Nat.le_of_not_lt ha)]
  · rw [incrPos_getD_ne xs a i hia]

theorem distribute_getD_ge (xs : List (Nat × Int)) (n i : Nat) :
    (xs.getD i (0, 0)).2 ≤ ((distribute xs n).getD i (0, 0)).2 := by
  induction n generalizing xs with
  | zero => exact le_refl _
  | succ n ih =>
    rw [distribute]
    exact le_trans (incrPos_getD_ge xs (argminPos xs) i) (ih (incrPos xs (argminPos xs)))

theorem lookup_at_pos (xs : List (Nat × Int)) (hnd : (xs.map Prod.fst).Nodup)
    (i : Nat) (hi : i < xs.length) :
    lookupA 0 xs ((xs.getD i (0, 0)).1) = (xs.getD i (0, 0)).2 := by
  induction xs generalizing i with
  | nil => simp at hi
  | cons p t ih =>
    cases i with
    | zero => simp [lookupA]
    | succ i =>
      rw [List.map_cons] at hnd
      rcases List.nodup_cons.mp hnd with ⟨hnotin, hndt⟩
      have hit : i < t.length := Nat.lt_of_succ_lt_succ hi
      have hkey : (t.getD i (0, 0)).1 ∈ t.map Prod.fst := by
        rw [List.getD_eq_getElem _ _ hit]
        exact List.mem_map.mpr ⟨_, List.getElem_mem _, rfl⟩
      have hne : p.1 ≠ (t.getD i (0, 0)).1 := fun hc => hnotin (hc ▸ hkey)
      simp only [List.getD_cons_succ, lookupA, if_neg hne]
      exact ih hndt i hit

theorem hasKeyA_iff_mem_keys {α : Type} {β : Type} (xs : List (α × β)) (c : α) :
    hasKeyA xs c ↔ c ∈ xs.map Prod.fst := by
  constructor
  · rintro ⟨p, hp, hpc⟩
    exact List.mem_map.mpr ⟨p, hp, hpc⟩
  · intro h
    rcases List.mem_map.mp h with ⟨p, hp, hpc⟩
    exact ⟨p, hp, hpc⟩

theorem hasKeyA_pos (xs : List (Nat × Int)) (c : Nat) (h : hasKeyA xs c) :
    ∃ i, i < xs.length ∧ (xs.getD i (0, 0)).1 = c := by
  rcases h with ⟨p, hp, hpc⟩
  rcases List.getElem_of_mem hp with ⟨i, hi, hip⟩
  exact ⟨i, hi, by rw [List.getD_eq_getElem _ _ hi, hip, hpc]⟩

theorem lookup_not_key {α : Type} [DecidableEq α] {β : Type} (dflt : β)
    (xs : List (α × β)) (c : α) (h : ¬ hasKeyA xs c) :
    lookupA dflt xs c = dflt := by
  induction xs with
  | nil => rfl
  | cons p t ih =>
    have hpc : p.1 ≠ c := fun hc => h ⟨p, List.mem_cons_self _ _, hc⟩
    simp only [lookupA, if_neg hpc]
    exact ih (fun ⟨q, hq, hqc⟩ => h ⟨q, List.mem_cons_of_mem _ hq, hqc⟩)

theorem touched_sublist (xs ys : List (Nat × Int)) :
    List.Sublist (touchedCores xs ys) (ys.map Prod.fst) := by
  induction xs generalizing ys with
  | nil =>
    cases ys with
    | nil => exact List.Sublist.refl _
    | cons q qs => exact List.nil_sublist _
  | cons p ps ih =>
    cases ys with
    | nil => exact List.Sublist.refl _
    | cons q qs =>
      simp only [touchedCores, List.map_cons]
      split
      · exact List.Sublist.cons₂ q.1 (ih qs)
      · exact List.Sublist.cons q.1 (ih qs)

theorem mem_touchedCores (xs ys : List (Nat × Int))
    (hkeys : xs.map Prod.fst = ys.map Prod.fst)
    (hnd : (xs.map Prod.fst).Nodup) (c : Nat) :
    c ∈ touchedCores xs ys ↔ hasKeyA xs c ∧ lookupA 0 xs c < lookupA 0 ys c := by
  induction xs generalizing ys with
  | nil =>
    have hys : ys = [] := by
      cases ys with
      | nil => rfl
      | cons q qs => simp at hkeys
    rw [hys]
    simp [touchedCores, hasKeyA]
  | cons p ps ih =>
    cases ys with
    | nil => simp at hkeys
    | cons q qs =>
      simp only [List.map_cons] at hkeys
      injection hkeys with hpq htl
      rw [List.map_cons] at hnd
      rcases List.nodup_cons.mp hnd with ⟨hnotin, hndt⟩
      by_cases hcp : c = p.1
      · have hq1 : q.1 = c := by rw [← hpq, ← hcp]
        have hlx : lookupA 0 (p :: ps) c = p.2 := by
          simp [lookupA, hcp.symm]
        have hly : lookupA 0 (q :: qs) c = q.2 := by
          simp [lookupA, hq1]
        have hkx : hasKeyA (p :: ps) c := ⟨p, List.mem_cons_self _ _, hcp.symm⟩
        have hnotinT : c ∉ touchedCores ps qs := by
          intro hmem
          have hsub := (touched_sublist ps qs).subset hmem
          rw [← htl] at hsub
          rw [hcp] at hsub
          exact hnotin hsub
        rw [hlx, hly]
        simp only [touchedCores]
        by_cases hlt : p.2 < q.2
        · rw [if_pos hlt]
          constructor
          · intro _
            exact ⟨hkx, hlt⟩
          · intro _
            exact List.mem_cons.mpr (Or.inl hq1.symm)
        · rw [if_neg hlt]
          constructor
          · intro hmem
            exact absurd hmem hnotinT
          · rintro ⟨_, hlt2⟩
            exact absurd hlt2 hlt
      · have hcq : c ≠ q.1 := by rw [← hpq]; exact hcp
        have hpc : p.1 ≠ c := fun h => hcp h.symm
        have hqc : q.1 ≠ c := fun h => hcq h.symm
        have hlx : lookupA 0 (p :: ps) c = lookupA 0 ps c := by
          simp [lookupA, hpc]
        have hly : lookupA 0 (q :: qs) c = lookupA 0 qs c := by
          simp [lookupA, hqc]
        have hkx : hasKeyA (p :: ps) c ↔ hasKeyA ps c := by
          constructor
          · rintro ⟨r, hr, hrc⟩
            rcases List.mem_cons.mp hr with h1 | h1
            · exact absurd (h1 ▸ hrc) hpc
            · exact ⟨r, h1, hrc⟩
          · rintro ⟨r, hr, hrc⟩
            exact ⟨r, List.mem_cons_of_mem _ hr, hrc⟩
        rw [hlx, hly, hkx]
        have hmemT : c ∈ touchedCores (p :: ps) (q :: qs) ↔ c ∈ touchedCores ps qs := by
          simp only [touchedCores]
          split
          · rw [List.mem_cons]
            constructor
            · rintro (h1 | h1)
              · exact absurd h1 hcq
              · exact h1
            · intro h1
              exact Or.inr h1
          · exact Iff.rfl
        rw [hmemT]
        exact ih qs htl hndt

theorem touched_length_eq (xs ys : List (Nat × Int)) (hlen : xs.length = ys.length)
    (hmono : ∀ i < xs.length, (xs.getD i (0, 0)).2 ≤ (ys.getD i (0, 0)).2)
    (hone : ∀ i < xs.length, (ys.getD i (0, 0)).2 ≤ (xs.getD i (0, 0)).2 + 1) :
    ((touchedCores xs ys).length : Int) = valsSum ys - valsSum xs := by
  induction xs generalizing ys with
  | nil =>
    cases ys with
    | nil => simp [touchedCores, valsSum]
    | cons q qs => simp at hlen
  | cons p ps ih =>
    cases ys with
    | nil => simp at hlen
    | cons q qs =>
      have hm0 := hmono 0 (Nat.succ_pos _)
      have ho0 := hone 0 (Nat.succ_pos _)
      simp only [List.getD_cons_zero] at hm0 ho0
      have hlen2 : ps.length = qs.length := Nat.succ_injective hlen
      have hmono2 : ∀ i < ps.length, (ps.getD i (0, 0)).2 ≤ (qs.getD i (0, 0)).2 := by
        intro i hi
        have := hmono (i + 1) (Nat.succ_lt_succ hi)
        simpa using this
      have hone2 : ∀ i < ps.length, (qs.getD i (0, 0)).2 ≤ (ps.getD i (0, 0)).2 + 1 := by
        intro i hi
        have := hone (i + 1) (Nat.succ_lt_succ hi)
        simpa using this
      have ihr := ih qs hlen2 hmono2 hone2
      simp only [touchedCores, valsSum, List.map_cons, List.sum_cons]
      simp only [valsSum] at ihr
      by_cases hlt : p.2 < q.2
      · rw [if_pos hlt]
        simp only [List.length_cons]
        push_cast
        omega
      · rw [if_neg hlt]
        have hq : q.2 = p.2 := le_antisymm (not_lt.mp hlt) hm0
        rw [hq]
        omega

/-- Release one slot of each listed core from a per-node share list
(the per-key effect of `CPUAllocMap.free` within one node). -/
def decShares (xs : List (Nat × Int)) (cs : List Nat) : List (Nat × Int) :=
  cs.foldl (fun ys c => setA ys c (lookupA 0 ys c - 1)) xs

theorem keys_decShares (cs : List Nat) (xs : List (Nat × Int)) :
    (decShares xs cs).map Prod.fst = xs.map Prod.fst := by
  induction cs generalizing xs with
  | nil => rfl
  | cons c rest ih =>
    show (decShares (setA xs c (lookupA 0 xs c - 1)) rest).map Prod.fst = _
    rw [ih, keys_setA]

theorem lookup_decShares (cs : List Nat) (xs : List (Nat × Int)) (hnd : cs.Nodup)
    (hkeys : ∀ c ∈ cs, hasKeyA xs c) (d : Nat) :
    lookupA 0 (decShares xs cs) d =
      lookupA 0 xs d - (if d ∈ cs then 1 else 0) := by
  induction cs generalizing xs with
  | nil => simp [decShares]
  | cons c rest ih =>
    rcases List.nodup_cons.mp hnd with ⟨hcnotin, hndr⟩
    have hkc : hasKeyA xs c := hkeys c (List.mem_cons_self _ _)
    have hkeys2 : ∀ x ∈ rest, hasKeyA (setA xs c (lookupA 0 xs c - 1)) x := by
      intro x hx
      exact (hasKeyA_setA xs c x _).mpr (hkeys x (List.mem_cons_of_mem _ hx))
    have hstep : decShares xs (c :: rest) =
        decShares (setA xs c (lookupA 0 xs c - 1)) rest := rfl
    rw [hstep, ih _ hndr hkeys2 ]
    by_cases hdc : d = c
    · rw [hdc]
      rw [lookupA_setA_self 0 xs c _ hkc]
      have : c ∉ rest := hcnotin
      simp [this]
    · rw [lookupA_setA_ne 0 xs c d _ hdc]
      have hmm : (d ∈ c :: rest) ↔ (d ∈ rest) := by
        rw [List.mem_cons]
        constructor
        · rintro (h1 | h1)
          · exact absurd h1 hdc
          · exact h1
        · exact Or.inr
      have hif : (if d ∈ c :: rest then (1 : Int) else 0) =
          (if d ∈ rest then (1 : Int) else 0) := if_congr hmm rfl rfl
      rw [hif]

theorem assoc_ext (xs ys : List (Nat × Int))
    (hkeys : xs.map Prod.fst = ys.map Prod.fst)
    (hnd : (xs.map Prod.fst).Nodup)
    (hlook : ∀ c, lookupA 0 xs c = lookupA 0 ys c) : xs = ys := by
  induction xs generalizing ys with
  | nil =>
    cases ys with
    | nil => rfl
    | cons q qs => simp at hkeys
  | cons p ps ih =>
    cases ys with
    | nil => simp at hkeys
    | cons q qs =>
      simp only [List.map_cons] at hkeys
      injection hkeys with hpq htl
      rw [List.map_cons] at hnd
      rcases List.nodup_cons.mp hnd with ⟨hnotin, hndt⟩
      have hv := hlook p.1
      rw [show lookupA 0 (p :: ps) p.1 = p.2 by simp [lookupA]] at hv
      rw [show lookupA 0 (q :: qs) p.1 = q.2 by simp [lookupA, hpq.symm]] at hv
      have hpqfull : p = q := Prod.ext hpq hv
      have hlook2 : ∀ c, lookupA 0 ps c = lookupA 0 qs c := by
        intro c
        by_cases hcp : c = p.1
        · have h1 : lookupA 0 ps c = 0 := by
            apply lookup_not_key
            intro hk
            rw [hasKeyA_iff_mem_keys] at hk
            exact hnotin (hcp ▸ hk)
          have h2 : lookupA 0 qs c = 0 := by
            apply lookup_not_key
            intro hk
            rw [hasKeyA_iff_mem_keys, ← htl] at hk
            exact hnotin (hcp ▸ hk)
          rw [h1, h2]
        · have hpc : p.1 ≠ c := fun h => hcp h.symm
          have hqc : q.1 ≠ c := by rw [← hpq]; exact hpc
          have := hlook c
          rw [show lookupA 0 (p :: ps) c = lookupA 0 ps c by simp [lookupA, hpc]] at this
          rw [show lookupA 0 (q :: qs) c = lookupA 0 qs c by simp [lookupA, hqc]] at this
          exact this
      rw [hpqfull, ih qs htl hndt hlook2]

theorem nodeOfCore_eq (topo : List (List Nat)) (k : Nat) (c : Nat)
    (hdisj : topo.Pairwise (fun a b => ∀ x ∈ a, x ∉ b))
    (hk : k < topo.length) (hc : c ∈ topo.getD k []) :
    nodeOfCore topo c = k := by
  induction topo generalizing k with
  | nil => simp at hk
  | cons l rest ih =>
    rcases List.pairwise_cons.mp hdisj with ⟨hhead, htail⟩
    cases k with
    | zero =>
      rw [List.getD_cons_zero] at hc
      simp [nodeOfCore, hc]
    | succ k =>
      rw [List.getD_cons_succ] at hc
      have hkr : k < rest.length := Nat.lt_of_succ_lt_succ hk
      have hmem : rest.getD k [] ∈ rest := by
        rw [List.getD_eq_getElem _ _ hkr]
        exact List.getElem_mem _
      have hcl : c ∉ l := fun hcl => (hhead _ hmem) c hcl hc
      simp only [nodeOfCore, if_neg hcl]
      rw [ih k htail hkr hc]

theorem free_in_node (M : CPUAllocMap) (cs : List Nat) (k : Nat)
    (hdisj : M.core_topo.Pairwise (fun a b => ∀ x ∈ a, x ∉ b))
    (hk : k < M.core_topo.length)
    (hcs : ∀ c ∈ cs, c ∈ M.core_topo.getD k [])
    (hkapn : k < M.alloc_per_node.length)
    (hkcs : k < M.core_shares.length) :
    (M.free cs).alloc_per_node
        = M.alloc_per_node.set k (M.alloc_per_node.getD k 0 - (cs.length : Int)) ∧
      (M.free cs).core_shares
        = M.core_shares.set k (decShares (M.core_shares.getD k []) cs) := by
  induction cs generalizing M with
  | nil =>
    simp only [CPUAllocMap.free, List.foldl_nil, List.length_nil, Nat.cast_zero,
      sub_zero, decShares]
    exact ⟨(set_getD_eq_self _ _ _ hkapn).symm, (set_getD_eq_self _ _ _ hkcs).symm⟩
  | cons c rest ih =>
    have hck : nodeOfCore M.core_topo c = k :=
      nodeOfCore_eq _ k c hdisj hk (hcs c (List.mem_cons_self _ _))
    have hfc_apn : (M.freeCore c).alloc_per_node =
        M.alloc_per_node.set k (M.alloc_per_node.getD k 0 - 1) := by
      simp [CPUAllocMap.freeCore, hck]
    have hfc_cs : (M.freeCore c).core_shares =
        M.core_shares.set k
          (setA (M.core_shares.getD k []) c
            (lookupA 0 (M.core_shares.getD k []) c - 1)) := by
      simp [CPUAllocMap.freeCore, hck]
    have hfc_topo : (M.freeCore c).core_topo = M.core_topo := rfl
    have hstep : M.free (c :: rest) = (M.freeCore c).free rest := rfl
    have ihr := ih (M.freeCore c)
      (by rw [hfc_topo]; exact hdisj)
      (by rw [hfc_topo]; exact hk)
      (by
        intro x hx
        rw [hfc_topo]
        exact hcs x (List.mem_cons_of_mem _ hx))
      (by rw [hfc_apn, List.length_set]; exact hkapn)
      (by rw [hfc_cs, List.length_set]; exact hkcs)
    rcases ihr with ⟨ih1, ih2⟩
    constructor
    · rw [hstep, ih1, hfc_apn, getD_set_self _ _ _ _ hkapn, List.set_set]
      congr 1
      simp only [List.length_cons]
      push_cast
      ring
    · rw [hstep, ih2, hfc_cs, getD_set_self _ _ _ _ hkcs, List.set_set]
      rfl

theorem CPUAllocMap_ext (x y : CPUAllocMap) (h1 : x.core_topo = y.core_topo)
    (h2 : x.alloc_per_node = y.alloc_per_node) (h3 : x.core_shares = y.core_shares) :
    x = y := by
  cases x
  cases y
  simp only at h1 h2 h3
  rw [h1, h2, h3]

theorem CPUAllocMap_eq_iff (x y : CPUAllocMap) :
    x = y ↔ (x.core_topo = y.core_topo ∧ x.alloc_per_node = y.alloc_per_node ∧
      x.core_shares = y.core_shares) := by
  constructor
  · rintro rfl
    exact ⟨rfl, rfl, rfl⟩
  · rintro ⟨h1, h2, h3⟩
    exact CPUAllocMap_ext x y h1 h2 h3

theorem getD_map_fst (xs : List (Nat × Int)) (j : Nat) (h : j < xs.length) :
    (xs.map Prod.fst).getD j 0 = (xs.getD j (0, 0)).1 := by
  rw [List.getD_eq_getElem _ _ (by simpa using h), List.getD_eq_getElem _ _ h,
    List.getElem_map]

theorem getD_fst_keys_eq (xs ys : List (Nat × Int))
    (h : xs.map Prod.fst = ys.map Prod.fst) (i : Nat) (hi : i < xs.length) :
    (xs.getD i (0, 0)).1 = (ys.getD i (0, 0)).1 := by
  have hlen : xs.length = ys.length := by
    have := congrArg List.length h
    simpa using this
  have hiy : i < ys.length := hlen ▸ hi
  have h2 := congrArg (fun l => l.getD i 0) h
  simp only at h2
  rw [getD_map_fst _ _ hi, getD_map_fst _ _ hiy] at h2
  exact h2

theorem hasKeyA_at_pos (counts : List (Nat × Int)) (i : Nat) (hi : i < counts.length) :
    hasKeyA counts ((counts.getD i (0, 0)).1) := by
  rw [List.getD_eq_getElem _ _ hi]
  exact ⟨counts[i], List.getElem_mem _, rfl⟩

theorem lookup_pos_pair (counts counts2 : List (Nat × Int))
    (hkeysEq : counts2.map Prod.fst = counts.map Prod.fst)
    (hnd : (counts.map Prod.fst).Nodup) (i : Nat) (hi : i < counts.length) :
    lookupA 0 counts ((counts.getD i (0, 0)).1) = (counts.getD i (0, 0)).2 ∧
      lookupA 0 counts2 ((counts.getD i (0, 0)).1) = (counts2.getD i (0, 0)).2 := by
  have hlen : counts2.length = counts.length := by
    have := congrArg List.length hkeysEq
    simpa using this
  have hi2 : i < counts2.length := by rw [hlen]; exact hi
  have hnd2 : (counts2.map Prod.fst).Nodup := by rw [hkeysEq]; exact hnd
  have hki2 : (counts2.getD i (0, 0)).1 = (counts.getD i (0, 0)).1 :=
    getD_fst_keys_eq counts2 counts hkeysEq i hi2
  refine ⟨lookup_at_pos counts hnd i hi, ?_⟩
  rw [← hki2]
  exact lookup_at_pos counts2 hnd2 i hi2

theorem restore_shares_of_le_one (counts : List (Nat × Int)) (n : Nat)
    (hnd : (counts.map Prod.fst).Nodup)
    (hdeltas : ∀ c ∈ touchedCores counts (distribute counts n),
      lookupA 0 (distribute counts n) c - lookupA 0 counts c ≤ 1) :
    decShares (distribute counts n) (touchedCores counts (distribute counts n)) = counts := by
  have hkeys2 : (distribute counts n).map Prod.fst = counts.map Prod.fst :=
    keys_distribute counts n
  have hndt : (touchedCores counts (distribute counts n)).Nodup :=
    List.Nodup.sublist (touched_sublist counts (distribute counts n))
      (by rw [hkeys2]; exact hnd)
  have htkeys : ∀ c ∈ touchedCores counts (distribute counts n),
      hasKeyA (distribute counts n) c := by
    intro c hc
    rw [hasKeyA_iff_mem_keys]
    exact (touched_sublist counts (distribute counts n)).subset hc
  apply assoc_ext
  · rw [keys_decShares, hkeys2]
  · rw [keys_decShares, hkeys2]
    exact hnd
  · intro c
    rw [lookup_decShares _ _ hndt htkeys c]
    by_cases hkc : hasKeyA counts c
    · rcases hasKeyA_pos counts c hkc with ⟨i, hi, hki⟩
      rcases lookup_pos_pair counts (distribute counts n) hkeys2 hnd i hi with ⟨hl1, hl2⟩
      rw [hki] at hl1 hl2
      have hmono : lookupA 0 counts c ≤ lookupA 0 (distribute counts n) c := by
        rw [hl1, hl2]
        exact distribute_getD_ge counts n i
      by_cases hct : c ∈ touchedCores counts (distribute counts n)
      · have hd := hdeltas c hct
        have hlt := ((mem_touchedCores counts (distribute counts n) hkeys2.symm hnd c).mp hct).2
        rw [if_pos hct]
        omega
      · have hnlt : ¬ lookupA 0 counts c < lookupA 0 (distribute counts n) c := by
          intro hl
          exact hct ((mem_touchedCores counts (distribute counts n) hkeys2.symm hnd c).mpr
            ⟨hkc, hl⟩)
        rw [if_neg hct]
        omega
    · have h0a : lookupA 0 counts c = 0 := lookup_not_key 0 counts c hkc
      have hkc2 : ¬ hasKeyA (distribute counts n) c := by
        intro hk2
        apply hkc
        rw [hasKeyA_iff_mem_keys] at hk2 ⊢
        rw [← hkeys2]
        exact hk2
      have h0b : lookupA 0 (distribute counts n) c = 0 :=
        lookup_not_key 0 (distribute counts n) c hkc2
      have hct : c ∉ touchedCores counts (distribute counts n) := fun hct =>
        hkc ((mem_touchedCores counts (distribute counts n) hkeys2.symm hnd c).mp hct).1
      rw [if_neg hct, h0a, h0b]
      simp

theorem touched_count_of_le_one (counts : List (Nat × Int)) (n : Nat)
    (hnd : (counts.map Prod.fst).Nodup)
    (hdeltas : ∀ c ∈ touchedCores counts (distribute counts n),
      lookupA 0 (distribute counts n) c - lookupA 0 counts c ≤ 1) :
    ((touchedCores counts (distribute counts n)).length : Int) =
      valsSum (distribute counts n) - valsSum counts := by
  have hkeys2 : (distribute counts n).map Prod.fst = counts.map Prod.fst :=
    keys_distribute counts n
  apply touched_length_eq
  · rw [length_distribute]
  · intro i hi
    exact distribute_getD_ge counts n i
  · intro i hi
    rcases lookup_pos_pair counts (distribute counts n) hkeys2 hnd i hi with ⟨hl1, hl2⟩
    by_cases hlt : (counts.getD i (0, 0)).2 < ((distribute counts n).getD i (0, 0)).2
    · have hct : (counts.getD i (0, 0)).1 ∈ touchedCores counts (distribute counts n) := by
        apply (mem_touchedCores counts (distribute counts n) hkeys2.symm hnd _).mpr
        refine ⟨hasKeyA_at_pos counts i hi, ?_⟩
        rw [hl1, hl2]
        exact hlt
      have hd := hdeltas _ hct
      rw [hl1, hl2] at hd
      omega
    · omega

theorem le_one_of_restore_shares (counts : List (Nat × Int)) (n : Nat)
    (hnd : (counts.map Prod.fst).Nodup)
    (heq : decShares (distribute counts n) (touchedCores counts (distribute counts n)) =
      counts) :
    ∀ c ∈ touchedCores counts (distribute counts n),
      lookupA 0 (distribute counts n) c - lookupA 0 counts c ≤ 1 := by
  have hkeys2 : (distribute counts n).map Prod.fst = counts.map Prod.fst :=
    keys_distribute counts n
  have hndt : (touchedCores counts (distribute counts n)).Nodup :=
    List.Nodup.sublist (touched_sublist counts (distribute counts n))
      (by rw [hkeys2]; exact hnd)
  have htkeys : ∀ c ∈ touchedCores counts (distribute counts n),
      hasKeyA (distribute counts n) c := by
    intro c hc
    rw [hasKeyA_iff_mem_keys]
    exact (touched_sublist counts (distribute counts n)).subset hc
  intro c hc
  have hdec := lookup_decShares _ _ hndt htkeys c
  rw [heq, if_pos hc] at hdec
  omega

theorem alloc_free_restore_iff (m : CPUAllocMap) (n : Nat)
    (hs : m.Shaped) (hnodup : ∀ l ∈ m.core_topo, l.Nodup)
    (hdisj : m.core_topo.Pairwise (fun a b => ∀ x ∈ a, x ∉ b))
    (hne : m.core_shares.getD (argminIdx m.alloc_per_node) [] ≠ []) :
    (m.alloc n).2.free (m.alloc n).1.2 = m ↔
      ∀ c ∈ (m.alloc n).1.2,
        lookupA 0 (distribute (m.core_shares.getD (argminIdx m.alloc_per_node) []) n) c -
          lookupA 0 (m.core_shares.getD (argminIdx m.alloc_per_node) []) c ≤ 1 := by
  have hkcs : argminIdx m.alloc_per_node < m.core_shares.length := by
    by_contra hlt
    exact hne (List.getD_eq_default _ _ (Nat.le_of_not_lt hlt))
  have hktopo : argminIdx m.alloc_per_node < m.core_topo.length := by
    rw [← hs.cs_len]; exact hkcs
  have hkapn : argminIdx m.alloc_per_node < m.alloc_per_node.length := by
    rw [hs.apn_len]; exact hktopo
  have hkeysk := hs.keys (argminIdx m.alloc_per_node)
  have hndk : ((m.core_shares.getD (argminIdx m.alloc_per_node) []).map Prod.fst).Nodup := by
    rw [hkeysk]
    apply hnodup
    rw [List.getD_eq_getElem _ _ hktopo]
    exact List.getElem_mem _
  have hkeys2 := keys_distribute (m.core_shares.getD (argminIdx m.alloc_per_node) []) n
  have halloc_res : (m.alloc n).1.2 =
      touchedCores (m.core_shares.getD (argminIdx m.alloc_per_node) [])
        (distribute (m.core_shares.getD (argminIdx m.alloc_per_node) []) n) := rfl
  have halloc_apn : (m.alloc n).2.alloc_per_node =
      m.alloc_per_node.set (argminIdx m.alloc_per_node)
        (m.alloc_per_node.getD (argminIdx m.alloc_per_node) 0 + (n : Int)) := rfl
  have halloc_cs : (m.alloc n).2.core_shares =
      m.core_shares.set (argminIdx m.alloc_per_node)
        (distribute (m.core_shares.getD (argminIdx m.alloc_per_node) []) n) := rfl
  have htsub : ∀ c ∈ (m.alloc n).1.2,
      c ∈ m.core_topo.getD (argminIdx m.alloc_per_node) [] := by
    intro c hc
    rw [halloc_res] at hc
    have := (touched_sublist _ _).subset hc
    rw [hkeys2, hkeysk] at this
    exact this
  obtain ⟨hA, hB⟩ := free_in_node (m.alloc n).2 ((m.alloc n).1.2)
    (argminIdx m.alloc_per_node)
    (by rw [show (m.alloc n).2.core_topo = m.core_topo from rfl]; exact hdisj)
    (by rw [show (m.alloc n).2.core_topo = m.core_topo from rfl]; exact hktopo)
    (by
      intro c hc
      rw [show (m.alloc n).2.core_topo = m.core_topo from rfl]
      exact htsub c hc)
    (by rw [halloc_apn, List.length_set]; exact hkapn)
    (by rw [halloc_cs, List.length_set]; exact hkcs)
  rw [halloc_apn] at hA
  rw [getD_set_self _ _ _ _ hkapn, List.set_set] at hA
  rw [halloc_cs] at hB
  rw [getD_set_self _ _ _ _ hkcs, List.set_set] at hB
  rw [CPUAllocMap_eq_iff]
  constructor
  · rintro ⟨-, -, hcs_eq⟩
    rw [hB] at hcs_eq
    have hD := congrArg (fun l => l.getD (argminIdx m.alloc_per_node) []) hcs_eq
    simp only [getD_set_self _ _ _ _ hkcs] at hD
    rw [halloc_res] at hD
    intro c hc
    rw [halloc_res] at hc
    exact le_one_of_restore_shares _ n hndk hD c hc
  · intro hdeltas
    have hdeltas2 : ∀ c ∈ touchedCores (m.core_shares.getD (argminIdx m.alloc_per_node) [])
        (distribute (m.core_shares.getD (argminIdx m.alloc_per_node) []) n),
        lookupA 0 (distribute (m.core_shares.getD (argminIdx m.alloc_per_node) []) n) c -
          lookupA 0 (m.core_shares.getD (argminIdx m.alloc_per_node) []) c ≤ 1 := by
      intro c hc
      exact hdeltas c (by rw [halloc_res]; exact hc)
    have hT : ((((m.alloc n).1.2).length : Nat) : Int) = (n : Int) := by
      rw [halloc_res]
      rw [touched_count_of_le_one _ n hndk hdeltas2]
      rw [valsSum_distribute _ n hne]
      ring
    refine ⟨(topo_free _ _).trans (topo_alloc m n), ?_, ?_⟩
    · rw [hA, hT]
      have heq : m.alloc_per_node.getD (argminIdx m.alloc_per_node) 0 + (n : Int) - (n : Int)
          = m.alloc_per_node.getD (argminIdx m.alloc_per_node) 0 := by ring
      rw [heq]
      exact set_getD_eq_self _ _ _ hkapn
    · rw [hB]
      have hrest : decShares
          (distribute (m.core_shares.getD (argminIdx m.alloc_per_node) []) n)
          ((m.alloc n).1.2) = m.core_shares.getD (argminIdx m.alloc_per_node) [] := by
        rw [halloc_res]
        exact restore_shares_of_le_one _ n hndk hdeltas2
      rw [hrest]
      exact set_getD_eq_self _ _ _ hkcs

theorem freeCore_decrements (M : CPUAllocMap) (c : Nat)
    (h1 : nodeOfCore M.core_topo c < M.alloc_per_node.length)
    (h2 : nodeOfCore M.core_topo c < M.core_shares.length)
    (h3 : hasKeyA (M.core_shares.getD (nodeOfCore M.core_topo c) []) c) :
    (M.freeCore c).alloc_per_node.getD (nodeOfCore M.core_topo c) 0 =
        M.alloc_per_node.getD (nodeOfCore M.core_topo c) 0 - 1 ∧
      lookupA 0 ((M.freeCore c).core_shares.getD (nodeOfCore M.core_topo c) []) c =
        lookupA 0 (M.core_shares.getD (nodeOfCore M.core_topo c) []) c - 1 := by
  constructor
  · show ((M.alloc_per_node.set (nodeOfCore M.core_topo c)
      (M.alloc_per_node.getD (nodeOfCore M.core_topo c) 0 - 1)).getD
        (nodeOfCore M.core_topo c) 0) = _
    rw [getD_set_self _ _ _ _ h1]
  · show lookupA 0 ((M.core_shares.set (nodeOfCore M.core_topo c)
      (setA (M.core_shares.getD (nodeOfCore M.core_topo c) []) c
        (lookupA 0 (M.core_shares.getD (nodeOfCore M.core_topo c) []) c - 1))).getD
          (nodeOfCore M.core_topo c) []) c = _
    rw [getD_set_self _ _ _ _ h2, lookupA_setA_self _ _ _ _ h3]

/-- Counterexample to C3 as stated: with topology `[[], [0]]` (node 0
has no cores, a shape the topology provider can produce), `alloc(1)`
from the zero state selects node 0, returns an empty core set, and
records the slot in `alloc_per_node`, so no core in the returned set
received more than one slot and yet `free` on the returned (empty) set
does not restore the state. -/
theorem C3_cpu_alloc_free_counterexample :
    (let m0 := CPUAllocMap.init [[], [0]]
     let r := m0.alloc 1
     (∀ c ∈ r.1.2,
        lookupA 0 (distribute (m0.core_shares.getD (argminIdx m0.alloc_per_node) []) 1) c -
          lookupA 0 (m0.core_shares.getD (argminIdx m0.alloc_per_node) []) c ≤ 1) ∧
      r.2.free r.1.2 ≠ m0) := by
  decide

/-- C3 amended: provided the node selected for the allocation has at
least one core (otherwise the slots are recorded in `alloc_per_node`
without touching any core and the empty returned set frees nothing),
`alloc(n)` followed immediately by `free` on the returned core set
restores `alloc_per_node` and `core_shares` to their pre-call values if
and only if no core in the returned set received more than one slot in
that call; and in general a single `freeCore` decrements the listed
core's share count by exactly 1 and its node's `alloc_per_node` by
exactly 1, so an alloc that assigned `k > 1` slots to a core needs `k`
matching frees. -/
theorem C3_cpu_alloc_free_roundtrip :
    (∀ (m : CPUAllocMap) (n : Nat),
      m.Shaped → (∀ l ∈ m.core_topo, l.Nodup) →
      m.core_topo.Pairwise (fun a b => ∀ x ∈ a, x ∉ b) →
      1 ≤ n →
      m.core_shares.getD (argminIdx m.alloc_per_node) [] ≠ [] →
      ((m.alloc n).2.free (m.alloc n).1.2 = m ↔
        ∀ c ∈ (m.alloc n).1.2,
          lookupA 0 (distribute (m.core_shares.getD (argminIdx m.alloc_per_node) []) n) c -
            lookupA 0 (m.core_shares.getD (argminIdx m.alloc_per_node) []) c ≤ 1)) ∧
    (∀ (M : CPUAllocMap) (c : Nat),
      nodeOfCore M.core_topo c < M.alloc_per_node.length →
      nodeOfCore M.core_topo c < M.core_shares.length →
      hasKeyA (M.core_shares.getD (nodeOfCore M.core_topo c) []) c →
      (M.freeCore c).alloc_per_node.getD (nodeOfCore M.core_topo c) 0 =
          M.alloc_per_node.getD (nodeOfCore M.core_topo c) 0 - 1 ∧
        lookupA 0 ((M.freeCore c).core_shares.getD (nodeOfCore M.core_topo c) []) c =
          lookupA 0 (M.core_shares.getD (nodeOfCore M.core_topo c) []) c - 1) :=
  ⟨fun m n hs hnd hdj _ hne => alloc_free_restore_iff m n hs hnd hdj hne,
   freeCore_decrements⟩

/-- Witness for C3: on the one-node topology `[[0, 1]]`, `alloc(2)`
gives each core one slot, and `free` on the returned set restores the
zero state exactly. -/
theorem C3_cpu_alloc_free_roundtrip_witness :
    ((CPUAllocMap.init [[0, 1]]).alloc 2).2.free (((CPUAllocMap.init [[0, 1]]).alloc 2).1.2)
      = CPUAllocMap.init [[0, 1]] :=
  (C3_cpu_alloc_free_roundtrip.1 (CPUAllocMap.init [[0, 1]]) 2 (shaped_init _)
    (by decide) (by decide) (by decide) (by decide)).mpr (by decide)

/-! ## Accelerator allocator (`AcceleratorAllocMap`, modelled from the spec)

Fractional shares are arbitrary-precision decimals in the source; they
are embedded as exact rationals, which preserves every decimal value
exactly.  The allocator depends on each device only through its id, its
NUMA node affinity and its `max_share` capability, per the capability
contract of the spec. -/

instance {α : Type} {β : Type} [DecidableEq α] (l : List (α × β)) (k : α) :
    Decidable (hasKeyA l k) := by
  unfold hasKeyA
  infer_instance

/-- Modelled from the spec: the slice of an accelerator device
descriptor (`ai/backend/agent/accelerator.py`, absent from the source
tree) that the allocator consumes: identity, NUMA node affinity, and
the `max_share` capability value. -/
structure AcceleratorDevice where
  device_id : String
  numa_node : Nat
  max_share : Rat
deriving DecidableEq

/-- Modelled from the spec: the `AcceleratorAllocMap` state of
`ai/backend/agent/resources.py` (absent from the source tree): the
device list and the mapping device id → currently allocated share. -/
structure AcceleratorAllocMap where
  devices : List AcceleratorDevice
  device_shares : List (String × Rat)
deriving DecidableEq

/-- Modelled from the spec: construction initializes every device's
allocated share to zero. -/
def AcceleratorAllocMap.init (devs : List AcceleratorDevice) : AcceleratorAllocMap :=
  ⟨devs, devs.map (fun d => (d.device_id, 0))⟩

/-- The distinct NUMA node ids of the device list, in ascending order. -/
def accNodes (devs : List AcceleratorDevice) : List Nat :=
  (List.range (devs.foldr (fun d acc => max d.numa_node acc) 0 + 1)).filter
    (fun nd => devs.any (fun d => d.numa_node == nd))

/-- The devices of one NUMA node group, preserving device list order. -/
def nodeDevices (devs : List AcceleratorDevice) (nd : Nat) : List AcceleratorDevice :=
  devs.filter (fun d => d.numa_node == nd)

/-- Aggregate available capacity of one NUMA node group:
`Σ (max_share(d) - allocated[d])` over its devices. -/
def availOnNode (mp : AcceleratorAllocMap) (nd : Nat) : Rat :=
  ((nodeDevices mp.devices nd).map
    (fun d => d.max_share - lookupA 0 mp.device_shares d.device_id)).sum

/-- Modelled from the spec: the first NUMA node (ascending node-id
order) whose aggregate available capacity meets the request. -/
def findAccNode (mp : AcceleratorAllocMap) (req : Rat) : Option Nat :=
  (accNodes mp.devices).find? (fun nd => decide (req ≤ availOnNode mp nd))

/-- Modelled from the spec: walk the selected node's devices in group
order; for each device take `min(remaining, max_share - allocated)`;
record and apply only positive takes; stop once nothing remains.
Returns the grant list and the updated share map. -/
def greedyGrab (shares : List (String × Rat)) :
    List AcceleratorDevice → Rat → List (String × Rat) × List (String × Rat)
  | [], _ => ([], shares)
  | d :: rest, remaining =>
    if remaining = 0 then ([], shares)
    else
      let take := min remaining (d.max_share - lookupA 0 shares d.device_id)
      if 0 < take then
        let shares2 := setA shares d.device_id (lookupA 0 shares d.device_id + take)
        let r := greedyGrab shares2 rest (remaining - take)
        ((d.device_id, take) :: r.1, r.2)
      else
        greedyGrab shares rest remaining

/-- Modelled from the spec: `AcceleratorAllocMap.alloc(requested_share)`
selects the first node whose aggregate availability meets the request
and grants greedily within that node only; when no node qualifies it
fails with a capacity-exceeded error and mutates nothing (all-or-nothing
check-then-commit). -/
def AcceleratorAllocMap.alloc (mp : AcceleratorAllocMap) (req : Rat) :
    Except Unit (Nat × List (String × Rat)) × AcceleratorAllocMap :=
  match findAccNode mp req with
  | none => (Except.error (), mp)
  | some nd =>
    let r := greedyGrab mp.device_shares (nodeDevices mp.devices nd) req
    (Except.ok (nd, r.1), { mp with device_shares := r.2 })

/-- Modelled from the spec: `AcceleratorAllocMap.free(share_map)`
decrements each listed device's allocated share by the listed amount. -/
def AcceleratorAllocMap.free (mp : AcceleratorAllocMap)
    (gs : List (String × Rat)) : AcceleratorAllocMap :=
  { mp with device_shares :=
      gs.foldl (fun s p => setA s p.1 (lookupA 0 s p.1 - p.2)) mp.device_shares }

/-- Total share granted to device `k` by a grant list. -/
def grantSum (gs : List (String × Rat)) (k : String) : Rat :=
  (gs.map (fun p => if p.1 = k then p.2 else 0)).sum

/-! ## Accelerator allocator lemmas -/

theorem acc_alloc_error_of_no_node (mp : AcceleratorAllocMap) (req : Rat)
    (h : ∀ nd ∈ accNodes mp.devices, availOnNode mp nd < req) :
    (mp.alloc req).1 = Except.error () ∧ (mp.alloc req).2 = mp := by
  have hfind : findAccNode mp req = none := by
    apply List.find?_eq_none.mpr
    intro nd hnd
    simp only [decide_eq_true_eq]
    exact not_le.mpr (h nd hnd)
  constructor
  · show (match findAccNode mp req with
      | none => (Except.error (), mp)
      | some nd =>
        let r := greedyGrab mp.device_shares (nodeDevices mp.devices nd) req
        (Except.ok (nd, r.1), { mp with device_shares := r.2 })).1 = Except.error ()
    rw [hfind]
  · show (match findAccNode mp req with
      | none => (Except.error (), mp)
      | some nd =>
        let r := greedyGrab mp.device_shares (nodeDevices mp.devices nd) req
        (Except.ok (nd, r.1), { mp with device_shares := r.2 })).2 = mp
    rw [hfind]

theorem find?_first_nat (p : Nat → Bool) (l : List Nat)
    (hsort : l.Pairwise (· < ·)) (x : Nat) (h : l.find? p = some x) :
    ∀ y ∈ l, y < x → p y = false := by
  induction l with
  | nil => simp at h
  | cons a t ih =>
    rcases List.pairwise_cons.mp hsort with ⟨ha, ht⟩
    by_cases hpa : p a = true
    · rw [List.find?_cons_of_pos _ hpa] at h
      injection h with hxa
      intro y hy hyx
      rcases List.mem_cons.mp hy with h1 | h1
      · rw [← hxa, h1] at hyx
        exact absurd hyx (lt_irrefl a)
      · have := ha y h1
        rw [← hxa] at hyx
        omega
    · have hpa2 : p a = false := by
        cases hb : p a with
        | true => exact absurd hb hpa
        | false => rfl
      rw [List.find?_cons_of_neg _ hpa] at h
      intro y hy hyx
      rcases List.mem_cons.mp hy with h1 | h1
      · rw [h1]
        exact hpa2
      · exact ih ht h y h1 hyx

theorem accNodes_sorted (devs : List AcceleratorDevice) :
    (accNodes devs).Pairwise (· < ·) :=
  List.Pairwise.filter _ (List.pairwise_lt_range _)

theorem greedy_grants_mem (group : List AcceleratorDevice) (shares : List (String × Rat))
    (rem : Rat) :
    ∀ p ∈ (greedyGrab shares group rem).1, ∃ d ∈ group, d.device_id = p.1 := by
  induction group generalizing shares rem with
  | nil => simp [greedyGrab]
  | cons d rest ih =>
    intro p hp
    simp only [greedyGrab] at hp
    by_cases hrem : rem = 0
    · rw [if_pos hrem] at hp
      simp at hp
    · rw [if_neg hrem] at hp
      by_cases htake : 0 < min rem (d.max_share - lookupA 0 shares d.device_id)
      · rw [if_pos htake] at hp
        simp only [List.mem_cons] at hp
        rcases hp with h1 | h1
        · exact ⟨d, List.mem_cons_self _ _, by rw [h1]⟩
        · rcases ih _ _ p h1 with ⟨d2, hd2, hd2id⟩
          exact ⟨d2, List.mem_cons_of_mem _ hd2, hd2id⟩
      · rw [if_neg htake] at hp
        rcases ih _ _ p hp with ⟨d2, hd2, hd2id⟩
        exact ⟨d2, List.mem_cons_of_mem _ hd2, hd2id⟩

theorem greedy_keys (group : List AcceleratorDevice) (shares : List (String × Rat))
    (rem : Rat) :
    ((greedyGrab shares group rem).2).map Prod.fst = shares.map Prod.fst := by
  induction group generalizing shares rem with
  | nil => rfl
  | cons d rest ih =>
    simp only [greedyGrab]
    by_cases hrem : rem = 0
    · rw [if_pos hrem]
    · rw [if_neg hrem]
      by_cases htake : 0 < min rem (d.max_share - lookupA 0 shares d.device_id)
      · rw [if_pos htake]
        show ((greedyGrab _ rest _).2).map Prod.fst = _
        rw [ih, keys_setA]
      · rw [if_neg htake]
        exact ih _ _

theorem greedy_lookup (group : List AcceleratorDevice) (shares : List (String × Rat))
    (rem : Rat) (hkeys : ∀ d ∈ group, hasKeyA shares d.device_id) :
    ∀ k, lookupA 0 (greedyGrab shares group rem).2 k =
      lookupA 0 shares k + grantSum (greedyGrab shares group rem).1 k := by
  induction group generalizing shares rem with
  | nil =>
    intro k
    simp [greedyGrab, grantSum]
  | cons d rest ih =>
    intro k
    simp only [greedyGrab]
    by_cases hrem : rem = 0
    · rw [if_pos hrem]
      simp [grantSum]
    · rw [if_neg hrem]
      by_cases htake : 0 < min rem (d.max_share - lookupA 0 shares d.device_id)
      · rw [if_pos htake]
        have hkd : hasKeyA shares d.device_id := hkeys d (List.mem_cons_self _ _)
        have hkeys2 : ∀ x ∈ rest,
            hasKeyA (setA shares d.device_id
              (lookupA 0 shares d.device_id +
                min rem (d.max_share - lookupA 0 shares d.device_id))) x.device_id := by
          intro x hx
          exact (hasKeyA_setA _ _ _ _).mpr (hkeys x (List.mem_cons_of_mem _ hx))
        have hrec := ih
          (setA shares d.device_id
            (lookupA 0 shares d.device_id +
              min rem (d.max_share - lookupA 0 shares d.device_id)))
          (rem - min rem (d.max_share - lookupA 0 shares d.device_id)) hkeys2 k
        show lookupA 0 (greedyGrab _ rest _).2 k = _
        rw [hrec]
        simp only [grantSum, List.map_cons, List.sum_cons]
        by_cases hdk : d.device_id = k
        · rw [if_pos hdk, ← hdk, lookupA_setA_self _ _ _ _ hkd]
          ring
        · rw [if_neg hdk, lookupA_setA_ne _ _ _ _ _ (fun hc => hdk hc.symm)]
          ring
      · rw [if_neg htake]
        exact ih shares rem (fun x hx => hkeys x (List.mem_cons_of_mem _ hx)) k

theorem free_fold_lookup (gs : List (String × Rat)) (s : List (String × Rat))
    (hkeys : ∀ p ∈ gs, hasKeyA s p.1) (k : String) :
    lookupA 0 (gs.foldl (fun t p => setA t p.1 (lookupA 0 t p.1 - p.2)) s) k =
      lookupA 0 s k - grantSum gs k := by
  induction gs generalizing s with
  | nil => simp [grantSum]
  | cons p rest ih =>
    have hkp : hasKeyA s p.1 := hkeys p (List.mem_cons_self _ _)
    have hkeys2 : ∀ q ∈ rest, hasKeyA (setA s p.1 (lookupA 0 s p.1 - p.2)) q.1 := by
      intro q hq
      exact (hasKeyA_setA _ _ _ _).mpr (hkeys q (List.mem_cons_of_mem _ hq))
    show lookupA 0 (rest.foldl _ (setA s p.1 (lookupA 0 s p.1 - p.2))) k = _
    rw [ih _ hkeys2]
    simp only [grantSum, List.map_cons, List.sum_cons]
    by_cases hpk : p.1 = k
    · rw [if_pos hpk, ← hpk, lookupA_setA_self _ _ _ _ hkp]
      ring
    · rw [if_neg hpk, lookupA_setA_ne _ _ _ _ _ (fun hc => hpk hc.symm)]
      ring

theorem free_fold_lookup_unlisted (gs : List (String × Rat)) (s : List (String × Rat))
    (k : String) (h : ∀ p ∈ gs, p.1 ≠ k) :
    lookupA 0 (gs.foldl (fun t p => setA t p.1 (lookupA 0 t p.1 - p.2)) s) k =
      lookupA 0 s k := by
  induction gs generalizing s with
  | nil => rfl
  | cons p rest ih =>
    show lookupA 0 (rest.foldl _ (setA s p.1 (lookupA 0 s p.1 - p.2))) k = _
    rw [ih _ (fun q hq => h q (List.mem_cons_of_mem _ hq))]
    exact lookupA_setA_ne _ _ _ _ _ (fun hc => h p (List.mem_cons_self _ _) hc.symm)

/-- The two-device fixture of the tests with both devices on NUMA
node 0: capacities 2 and 1 (`dummy_devices_in_same_node`). -/
def accDevsSame : List AcceleratorDevice := [⟨"d1", 0, 2⟩, ⟨"d2", 0, 1⟩]

/-- The two-device fixture of the tests with devices on NUMA nodes 0
and 1: capacities 2 and 1 (`dummy_devices`). -/
def accDevsCross : List AcceleratorDevice := [⟨"d1", 0, 2⟩, ⟨"d2", 1, 1⟩]

/-! ## Claim C1: capacity-exceeded allocation fails atomically -/

/-- C1: for every allocator state and positive requested share, if no
single NUMA node group's aggregate available capacity is at least the
request, `alloc` fails with the capacity-exceeded error and every
device's allocated share is exactly the same after the failed call as
before it (no state is mutated). -/
theorem C1_acc_alloc_capacity_exceeded :
    ∀ (mp : AcceleratorAllocMap) (req : Rat),
      0 < req →
      (∀ nd ∈ accNodes mp.devices, availOnNode mp nd < req) →
      (mp.alloc req).1 = Except.error () ∧ (mp.alloc req).2 = mp ∧
        ∀ d, lookupA 0 ((mp.alloc req).2).device_shares d =
          lookupA 0 mp.device_shares d := by
  intro mp req _ hcap
  obtain ⟨h1, h2⟩ := acc_alloc_error_of_no_node mp req hcap
  exact ⟨h1, h2, fun d => by rw [h2]⟩

/-- Witness for C1: two devices of capacity 2 and 1 on separate nodes
reject a request of 2.5, and the state is unchanged. -/
theorem C1_acc_alloc_capacity_exceeded_witness :
    ((AcceleratorAllocMap.init accDevsCross).alloc (5/2)).1 = Except.error () ∧
      ((AcceleratorAllocMap.init accDevsCross).alloc (5/2)).2 =
        AcceleratorAllocMap.init accDevsCross := by
  have h := C1_acc_alloc_capacity_exceeded (AcceleratorAllocMap.init accDevsCross) (5/2)
    (by norm_num)
    (by
      intro nd hnd
      have haccn : accNodes (AcceleratorAllocMap.init accDevsCross).devices = [0, 1] := by
        decide
      rw [haccn] at hnd
      simp only [List.mem_cons, List.not_mem_nil, or_false] at hnd
      rcases hnd with rfl | rfl <;>
        norm_num +decide [availOnNode, nodeDevices, AcceleratorAllocMap.init, accDevsCross,
          lookupA])
  exact ⟨h.1, h.2.1⟩

/-! ## Claim C4: allocation never spans NUMA node groups -/

/-- C4: a successful `alloc` selects the first NUMA node group in
ascending node-id order whose aggregate availability meets the request
(the selected node qualifies and every smaller node id fails), and every
granted device belongs to that single group; in particular, two devices
of capacity 2 and 1 on separate nodes reject a request of 2.5 even
though the total capacity is 3. -/
theorem C4_acc_alloc_single_node :
    (∀ (mp : AcceleratorAllocMap) (req : Rat) (nd : Nat) (gs : List (String × Rat)),
      (mp.alloc req).1 = Except.ok (nd, gs) →
      nd ∈ accNodes mp.devices ∧ req ≤ availOnNode mp nd ∧
        (∀ nd2 ∈ accNodes mp.devices, nd2 < nd → availOnNode mp nd2 < req) ∧
        ∀ p ∈ gs, ∃ d ∈ mp.devices, d.device_id = p.1 ∧ d.numa_node = nd) ∧
    ((AcceleratorAllocMap.init accDevsCross).alloc (5/2)).1 = Except.error () := by
  constructor
  · intro mp req nd gs hok
    cases hfind : findAccNode mp req with
    | none => simp [AcceleratorAllocMap.alloc, hfind] at hok
    | some nd0 =>
      simp only [AcceleratorAllocMap.alloc, hfind] at hok
      rw [Except.ok.injEq, Prod.mk.injEq] at hok
      obtain ⟨rfl, rfl⟩ := hok
      have hmem : nd0 ∈ accNodes mp.devices := List.mem_of_find?_eq_some hfind
      have hqual : req ≤ availOnNode mp nd0 := by
        have := List.find?_some hfind
        simpa using this
      refine ⟨hmem, hqual, ?_, ?_⟩
      · intro nd2 hnd2 hlt
        have := find?_first_nat _ _ (accNodes_sorted mp.devices) nd0 hfind nd2 hnd2 hlt
        simp only [decide_eq_false_iff_not, not_le] at this
        exact this
      · intro p hp
        rcases greedy_grants_mem (nodeDevices mp.devices nd0) mp.device_shares req p hp
          with ⟨d, hd, hid⟩
        have hd2 := List.mem_filter.mp hd
        refine ⟨d, hd2.1, hid, ?_⟩
        have := hd2.2
        simpa using this
  · have hcap : ∀ nd2 ∈ accNodes (AcceleratorAllocMap.init accDevsCross).devices,
        availOnNode (AcceleratorAllocMap.init accDevsCross) nd2 < 5/2 := by
      intro nd2 hnd2
      have haccn : accNodes (AcceleratorAllocMap.init accDevsCross).devices = [0, 1] := by
        decide
      rw [haccn] at hnd2
      simp only [List.mem_cons, List.not_mem_nil, or_false] at hnd2
      rcases hnd2 with rfl | rfl <;>
        norm_num +decide [availOnNode, nodeDevices, AcceleratorAllocMap.init, accDevsCross,
          lookupA]
    exact (acc_alloc_error_of_no_node _ _ hcap).1

/-- Witness for C4: a request of one half on a single device of
capacity 2 on node 0 succeeds, and the selected node 0 is a qualifying
group member. -/
theorem C4_acc_alloc_single_node_witness :
    0 ∈ accNodes (AcceleratorAllocMap.init [⟨"d1", 0, 2⟩]).devices ∧
      (1/2 : Rat) ≤ availOnNode (AcceleratorAllocMap.init [⟨"d1", 0, 2⟩]) 0 := by
  have h := C4_acc_alloc_single_node.1 (AcceleratorAllocMap.init [⟨"d1", 0, 2⟩]) (1/2) 0
    [(("d1" : String), (1/2 : Rat))]
    (by
      norm_num +decide [AcceleratorAllocMap.alloc, AcceleratorAllocMap.init, findAccNode,
        accNodes, nodeDevices, availOnNode, greedyGrab, setA, lookupA, min_def,
        List.find?])
  exact ⟨h.1, h.2.1⟩

/-! ## Claim C5: alloc followed by free restores shares exactly -/

/-- C5: whenever `alloc` succeeds, calling `free` with exactly the
returned device-to-share mapping restores every device's allocated
share to its value before the call, with exact equality (shares are
exact rationals, never binary floats), including the greedy split of
2.5 across same-node devices of capacity 2 and 1 into
`{d1: 2.0, d2: 0.5}`. -/
theorem C5_acc_alloc_free_exact_restore :
    (∀ (mp : AcceleratorAllocMap) (req : Rat) (nd : Nat) (gs : List (String × Rat)),
      (∀ d ∈ mp.devices, hasKeyA mp.device_shares d.device_id) →
      (mp.alloc req).1 = Except.ok (nd, gs) →
      ∀ k, lookupA 0 (((mp.alloc req).2).free gs).device_shares k =
        lookupA 0 mp.device_shares k) ∧
    (((AcceleratorAllocMap.init accDevsSame).alloc (5/2)).1 =
        Except.ok (0, [(("d1" : String), (2 : Rat)), (("d2" : String), (1/2 : Rat))]) ∧
      (((AcceleratorAllocMap.init accDevsSame).alloc (5/2)).2.free
          [(("d1" : String), (2 : Rat)), (("d2" : String), (1/2 : Rat))]).device_shares =
        (AcceleratorAllocMap.init accDevsSame).device_shares) := by
  constructor
  · intro mp req nd gs hkeysall hok
    cases hfind : findAccNode mp req with
    | none => simp [AcceleratorAllocMap.alloc, hfind] at hok
    | some nd0 =>
      simp only [AcceleratorAllocMap.alloc, hfind] at hok
      rw [Except.ok.injEq, Prod.mk.injEq] at hok
      obtain ⟨rfl, rfl⟩ := hok
      intro k
      have hshares : ((mp.alloc req).2).device_shares =
          (greedyGrab mp.device_shares (nodeDevices mp.devices nd0) req).2 := by
        simp [AcceleratorAllocMap.alloc, hfind]
      have hkeysgroup : ∀ d ∈ nodeDevices mp.devices nd0,
          hasKeyA mp.device_shares d.device_id := by
        intro d hd
        exact hkeysall d (List.mem_filter.mp hd).1
      have hgk : ∀ p ∈ (greedyGrab mp.device_shares (nodeDevices mp.devices nd0) req).1,
          hasKeyA (greedyGrab mp.device_shares (nodeDevices mp.devices nd0) req).2 p.1 := by
        intro p hp
        rcases greedy_grants_mem (nodeDevices mp.devices nd0) mp.device_shares req p hp
          with ⟨d, hd, hid⟩
        have hk0 : hasKeyA mp.device_shares p.1 := hid ▸ hkeysall d (List.mem_filter.mp hd).1
        rw [hasKeyA_iff_mem_keys, greedy_keys, ← hasKeyA_iff_mem_keys]
        exact hk0
      show lookupA 0
        (((greedyGrab mp.device_shares (nodeDevices mp.devices nd0) req).1).foldl
          (fun t p => setA t p.1 (lookupA 0 t p.1 - p.2))
          ((mp.alloc req).2).device_shares) k = _
      rw [hshares]
      rw [free_fold_lookup _ _ hgk k]
      rw [greedy_lookup (nodeDevices mp.devices nd0) mp.device_shares req hkeysgroup k]
      ring
  · constructor
    · norm_num +decide [AcceleratorAllocMap.alloc, AcceleratorAllocMap.init, findAccNode,
        accNodes, nodeDevices, availOnNode, greedyGrab, setA, lookupA, accDevsSame,
        min_def, List.find?]
    · norm_num +decide [AcceleratorAllocMap.alloc, AcceleratorAllocMap.free,
        AcceleratorAllocMap.init, findAccNode, accNodes, nodeDevices, availOnNode,
        greedyGrab, setA, lookupA, accDevsSame, min_def, List.find?]

/-- Witness for C5: on a single device of capacity 2, allocating one
half and freeing the returned mapping restores the device's share. -/
theorem C5_acc_alloc_free_exact_restore_witness :
    lookupA 0 (((AcceleratorAllocMap.init [⟨"d1", 0, 2⟩]).alloc (1/2)).2.free
        [(("d1" : String), (1/2 : Rat))]).device_shares ("d1") =
      lookupA 0 (AcceleratorAllocMap.init [⟨"d1", 0, 2⟩]).device_shares ("d1") :=
  C5_acc_alloc_free_exact_restore.1 (AcceleratorAllocMap.init [⟨"d1", 0, 2⟩]) (1/2) 0
    [(("d1" : String), (1/2 : Rat))] (by decide)
    (by
      norm_num +decide [AcceleratorAllocMap.alloc, AcceleratorAllocMap.init, findAccNode,
        accNodes, nodeDevices, availOnNode, greedyGrab, setA, lookupA, min_def,
        List.find?]) ("d1")

/-! ## Claim C10: free leaves unlisted devices untouched -/

/-- C10: for every allocator state and every share map passed to
`free`, the allocated share of every device whose id does not appear in
the share map is unchanged by the call. -/
theorem C10_acc_free_frame :
    ∀ (mp : AcceleratorAllocMap) (gs : List (String × Rat)) (k : String),
      (∀ p ∈ gs, p.1 ≠ k) →
      lookupA 0 ((mp.free gs).device_shares) k = lookupA 0 mp.device_shares k :=
  fun mp gs k h => free_fold_lookup_unlisted gs mp.device_shares k h

/-- Witness for C10: freeing a share of one cross-node device leaves
the other node's device untouched. -/
theorem C10_acc_free_frame_witness :
    lookupA 0 (((AcceleratorAllocMap.init accDevsCross).free
        [(("d1" : String), (3/2 : Rat))]).device_shares) ("d2") =
      lookupA 0 (AcceleratorAllocMap.init accDevsCross).device_shares ("d2") :=
  C10_acc_free_frame (AcceleratorAllocMap.init accDevsCross)
    [(("d1" : String), (3/2 : Rat))] ("d2") (by decide)

/-! ## Kernel resource spec (`KernelResourceSpec`, modelled from the spec)

The persisted textual form's exact delimiter grammar is an
implementation choice per the spec; the binding contract is the
round-trip law.  The form here is a list of text lines: scalar fields
one per line, length-prefixed sequences, mounts in the mandated compact
`source:destination:mode` triple form, and decimal shares rendered as
exact base-10 digit strings (never through a binary float). -/

/-- The character for a single decimal digit value. -/
def digitChar (d : Nat) : Char :=
  match d with
  | 0 => '0'
  | 1 => '1'
  | 2 => '2'
  | 3 => '3'
  | 4 => '4'
  | 5 => '5'
  | 6 => '6'
  | 7 => '7'
  | 8 => '8'
  | _ => '9'

/-- The numeric value of a decimal digit character. -/
def digitVal (c : Char) : Nat :=
  match c with
  | '0' => 0
  | '1' => 1
  | '2' => 2
  | '3' => 3
  | '4' => 4
  | '5' => 5
  | '6' => 6
  | '7' => 7
  | '8' => 8
  | _ => 9

/-- Whether a character is a decimal digit. -/
def isDigitB (c : Char) : Bool :=
  match c with
  | '0' | '1' | '2' | '3' | '4' | '5' | '6' | '7' | '8' | '9' => true
  | _ => false

/-- Decimal digit expansion with an explicit fuel bound (most
significant digit first, no leading zeros). -/
def n2dAux : Nat → Nat → List Char
  | 0, _ => []
  | fuel + 1, n =>
    if n < 10 then [digitChar n]
    else n2dAux fuel (n / 10) ++ [digitChar (n % 10)]

/-- The canonical decimal digit string of a natural number. -/
def natToDigits (n : Nat) : List Char := n2dAux (n + 1) n

/-- The value of a decimal digit string (leading zeros allowed). -/
def digitsToNat (l : List Char) : Nat :=
  l.foldl (fun acc c => 10 * acc + digitVal c) 0

theorem digitVal_digitChar : ∀ d < 10, digitVal (digitChar d) = d := by decide

theorem isDigitB_digitChar : ∀ d < 10, isDigitB (digitChar d) = true := by decide

theorem isDigitB_ne_dot (c : Char) (h : isDigitB c = true) : c ≠ '.' := by
  intro hc
  rw [hc] at h
  exact absurd h (by decide)

theorem isDigitB_ne_colon (c : Char) (h : isDigitB c = true) : c ≠ ':' := by
  intro hc
  rw [hc] at h
  exact absurd h (by decide)

theorem digitsToNat_append_digit (l : List Char) (c : Char) :
    digitsToNat (l ++ [c]) = 10 * digitsToNat l + digitVal c := by
  unfold digitsToNat
  rw [List.foldl_append]
  rfl

theorem n2dAux_spec : ∀ fuel n, n < fuel →
    n2dAux fuel n ≠ [] ∧ (∀ c ∈ n2dAux fuel n, isDigitB c = true) ∧
      digitsToNat (n2dAux fuel n) = n := by
  intro fuel
  induction fuel with
  | zero => intro n hn; omega
  | succ fuel ih =>
    intro n hn
    by_cases h10 : n < 10
    · refine ⟨by simp [n2dAux, h10], ?_, ?_⟩
      · intro c hc
        simp only [n2dAux, if_pos h10, List.mem_singleton] at hc
        rw [hc]
        exact isDigitB_digitChar n h10
      · simp only [n2dAux, if_pos h10]
        show digitsToNat ([] ++ [digitChar n]) = n
        rw [digitsToNat_append_digit]
        show 10 * 0 + digitVal (digitChar n) = n
        rw [digitVal_digitChar n h10]
        omega
    · have hdiv : n / 10 < fuel := by
        have h1 : n / 10 < n := Nat.div_lt_self (by omega) (by omega)
        omega
      rcases ih (n / 10) hdiv with ⟨hne, hdig, hval⟩
      refine ⟨?_, ?_, ?_⟩
      · simp [n2dAux, if_neg h10]
      · intro c hc
        simp only [n2dAux, if_neg h10, List.mem_append, List.mem_singleton] at hc
        rcases hc with hc | hc
        · exact hdig c hc
        · rw [hc]
          exact isDigitB_digitChar _ (Nat.mod_lt _ (by omega))
      · simp only [n2dAux, if_neg h10]
        rw [digitsToNat_append_digit, hval, digitVal_digitChar _ (Nat.mod_lt _ (by omega))]
        omega

theorem natToDigits_spec (n : Nat) :
    natToDigits n ≠ [] ∧ (∀ c ∈ natToDigits n, isDigitB c = true) ∧
      digitsToNat (natToDigits n) = n :=
  n2dAux_spec (n + 1) n (by omega)

theorem n2dAux_length_le : ∀ fuel n t, 1 ≤ t → n < 10 ^ t → n < fuel →
    (n2dAux fuel n).length ≤ t := by
  intro fuel
  induction fuel with
  | zero => intro n t _ _ hn; omega
  | succ fuel ih =>
    intro n t ht hnt hn
    by_cases h10 : n < 10
    · simp only [n2dAux, if_pos h10, List.length_singleton]
      omega
    · have ht2 : 2 ≤ t := by
        by_contra hcon
        have : t = 1 := by omega
        rw [this] at hnt
        simp at hnt
        omega
      have hdiv : n / 10 < fuel := by
        have h1 : n / 10 < n := Nat.div_lt_self (by omega) (by omega)
        omega
      have hpow : n / 10 < 10 ^ (t - 1) := by
        have hmul : 10 ^ (t - 1) * 10 = 10 ^ t := by
          rw [← pow_succ]
          congr 1
          omega
        rw [Nat.div_lt_iff_lt_mul (by omega)]
        omega
      have := ih (n / 10) (t - 1) (by omega) hpow hdiv
      simp only [n2dAux, if_neg h10, List.length_append, List.length_singleton]
      omega

theorem digitsToNat_replicate_zero (k : Nat) (xs : List Char) :
    digitsToNat (List.replicate k '0' ++ xs) = digitsToNat xs := by
  induction k with
  | zero => rfl
  | succ k ih =>
    rw [List.replicate_succ, List.cons_append]
    show digitsToNat (List.replicate k '0' ++ xs) = _
    exact ih

/-- Modelled from the spec: an arbitrary-precision non-negative decimal
share (the Python `Decimal` values used for shares), as an integer
mantissa with a decimal scale; the value is `mantissa / 10 ^ scale`. -/
structure DecShare where
  mantissa : Nat
  scale : Nat
deriving DecidableEq

/-- Left-pad a digit string with zeros to a given width. -/
def padZeros (s : Nat) (l : List Char) : List Char :=
  List.replicate (s - l.length) '0' ++ l

/-- The exact base-10 rendering of a decimal share (never through a
binary float): integer part, and for positive scale a point followed by
exactly `scale` fraction digits. -/
def renderDec (d : DecShare) : List Char :=
  if d.scale = 0 then natToDigits d.mantissa
  else natToDigits (d.mantissa / 10 ^ d.scale) ++
    '.' :: padZeros d.scale (natToDigits (d.mantissa % 10 ^ d.scale))

/-- Split a character list at the first point character, when any. -/
def splitDot : List Char → List Char × Option (List Char)
  | [] => ([], none)
  | c :: rest =>
    if c = '.' then ([], some rest)
    else
      let r := splitDot rest
      (c :: r.1, r.2)

/-- Parse one decimal share from a split integer/fraction pair. -/
def parseDecCore (a : List Char) : Option (List Char) → Option DecShare
  | none =>
    if a ≠ [] ∧ a.all isDigitB = true then some ⟨digitsToNat a, 0⟩ else none
  | some b =>
    if a ≠ [] ∧ b ≠ [] ∧ a.all isDigitB = true ∧ b.all isDigitB = true then
      some ⟨digitsToNat a * 10 ^ b.length + digitsToNat b, b.length⟩
    else none

/-- Parse the exact base-10 rendering of a decimal share. -/
def parseDec (l : List Char) : Option DecShare :=
  parseDecCore (splitDot l).1 (splitDot l).2

theorem splitDot_no_dot (l : List Char) (h : '.' ∉ l) : splitDot l = (l, none) := by
  induction l with
  | nil => rfl
  | cons c rest ih =>
    have hc : c ≠ '.' := fun hc => h (hc ▸ List.mem_cons_self _ _)
    have hr : '.' ∉ rest := fun hr => h (List.mem_cons_of_mem _ hr)
    simp only [splitDot, if_neg hc, ih hr]

theorem splitDot_append (a b : List Char) (h : '.' ∉ a) :
    splitDot (a ++ '.' :: b) = (a, some b) := by
  induction a with
  | nil => simp [splitDot]
  | cons c rest ih =>
    have hc : c ≠ '.' := fun hc => h (hc ▸ List.mem_cons_self _ _)
    have hr : '.' ∉ rest := fun hr => h (List.mem_cons_of_mem _ hr)
    show splitDot (c :: (rest ++ '.' :: b)) = _
    simp only [splitDot, if_neg hc]
    rw [ih hr]

theorem parseDec_renderDec (d : DecShare) : parseDec (renderDec d) = some d := by
  rcases d with ⟨m, s⟩
  cases s with
  | zero =>
    rcases natToDigits_spec m with ⟨hne, hdig, hval⟩
    have hnd : '.' ∉ natToDigits m := fun hmem => isDigitB_ne_dot _ (hdig _ hmem) rfl
    have hrd : renderDec ⟨m, 0⟩ = natToDigits m := by
      simp [renderDec]
    rw [hrd]
    unfold parseDec
    rw [splitDot_no_dot _ hnd]
    simp only [parseDecCore]
    rw [if_pos ⟨hne, List.all_eq_true.mpr hdig⟩, hval]
  | succ s =>
    have hpow : 0 < 10 ^ (s + 1) := Nat.pos_pow_of_pos _ (by omega)
    rcases natToDigits_spec (m / 10 ^ (s + 1)) with ⟨hneA, hdigA, hvalA⟩
    rcases natToDigits_spec (m % 10 ^ (s + 1)) with ⟨hneF, hdigF, hvalF⟩
    have hndA : '.' ∉ natToDigits (m / 10 ^ (s + 1)) := fun hmem =>
      isDigitB_ne_dot _ (hdigA _ hmem) rfl
    have hlenF : (natToDigits (m % 10 ^ (s + 1))).length ≤ s + 1 :=
      n2dAux_length_le _ _ (s + 1) (by omega) (Nat.mod_lt _ hpow) (by omega)
    have hBlen : (padZeros (s + 1) (natToDigits (m % 10 ^ (s + 1)))).length = s + 1 := by
      simp only [padZeros, List.length_append, List.length_replicate]
      omega
    have hBne : padZeros (s + 1) (natToDigits (m % 10 ^ (s + 1))) ≠ [] := by
      intro hc
      have := congrArg List.length hc
      rw [hBlen] at this
      simp at this
    have hBdig : ∀ c ∈ padZeros (s + 1) (natToDigits (m % 10 ^ (s + 1))),
        isDigitB c = true := by
      intro c hc
      rcases List.mem_append.mp hc with hc1 | hc1
      · rw [List.eq_of_mem_replicate hc1]
        decide
      · exact hdigF c hc1
    have hBval : digitsToNat (padZeros (s + 1) (natToDigits (m % 10 ^ (s + 1)))) =
        m % 10 ^ (s + 1) := by
      unfold padZeros
      rw [digitsToNat_replicate_zero, hvalF]
    have hrd : renderDec ⟨m, s + 1⟩ = natToDigits (m / 10 ^ (s + 1)) ++
        '.' :: padZeros (s + 1) (natToDigits (m % 10 ^ (s + 1))) := by
      simp [renderDec]
    rw [hrd]
    unfold parseDec
    rw [splitDot_append _ _ hndA]
    simp only [parseDecCore]
    rw [if_pos ⟨hneA, hBne, List.all_eq_true.mpr hdigA, List.all_eq_true.mpr hBdig⟩]
    rw [hvalA, hBval, hBlen, Nat.div_add_mod' m (10 ^ (s + 1))]

/-- Split a character list on every occurrence of a separator. -/
def splitOnCh (sep : Char) : List Char → List (List Char)
  | [] => [[]]
  | c :: rest =>
    match splitOnCh sep rest with
    | [] => [[]]
    | g :: gs => if c = sep then [] :: g :: gs else (c :: g) :: gs

theorem splitOnCh_ne_nil (sep : Char) (l : List Char) : splitOnCh sep l ≠ [] := by
  induction l with
  | nil => simp [splitOnCh]
  | cons c rest ih =>
    simp only [splitOnCh]
    cases hr : splitOnCh sep rest with
    | nil => simp
    | cons g gs =>
      show (if c = sep then [] :: g :: gs else (c :: g) :: gs) ≠ []
      by_cases hcs : c = sep
      · rw [if_pos hcs]
        simp
      · rw [if_neg hcs]
        simp

theorem splitOnCh_no_sep (sep : Char) (l : List Char) (h : sep ∉ l) :
    splitOnCh sep l = [l] := by
  induction l with
  | nil => rfl
  | cons c rest ih =>
    have hc : c ≠ sep := fun hc => h (hc ▸ List.mem_cons_self _ _)
    have hr : sep ∉ rest := fun hr => h (List.mem_cons_of_mem _ hr)
    simp only [splitOnCh]
    rw [ih hr]
    show (if c = sep then [] :: rest :: [] else (c :: rest) :: []) = [c :: rest]
    rw [if_neg hc]

theorem splitOnCh_append (sep : Char) (a rest : List Char) (h : sep ∉ a) :
    splitOnCh sep (a ++ sep :: rest) = a :: splitOnCh sep rest := by
  induction a with
  | nil =>
    show splitOnCh sep (sep :: rest) = [] :: splitOnCh sep rest
    simp only [splitOnCh]
    cases hr : splitOnCh sep rest with
    | nil => exact absurd hr (splitOnCh_ne_nil sep rest)
    | cons g gs => rfl
  | cons c a2 ih =>
    have hc : c ≠ sep := fun hc => h (hc ▸ List.mem_cons_self _ _)
    have ha2 : sep ∉ a2 := fun hx => h (List.mem_cons_of_mem _ hx)
    show splitOnCh sep (c :: (a2 ++ sep :: rest)) = _
    simp only [splitOnCh]
    rw [ih ha2]
    show (if c = sep then [] :: a2 :: splitOnCh sep rest
      else (c :: a2) :: splitOnCh sep rest) = (c :: a2) :: splitOnCh sep rest
    rw [if_neg hc]

/-- Modelled from the spec: a mount permission, serialized as the
two-letter tag `ro` or `rw`. -/
inductive MountPermission where
  | read_only
  | read_write
deriving DecidableEq

/-- Modelled from the spec: a mount entry of host path, container path
and permission; serialized as `source-path:destination-path:mode`. -/
structure Mount where
  host_path : String
  container_path : String
  permission : MountPermission
deriving DecidableEq

/-- The two-letter mode tag of a permission. -/
def permChars : MountPermission → List Char
  | MountPermission.read_only => ['r', 'o']
  | MountPermission.read_write => ['r', 'w']

/-- Parse a two-letter mode tag. -/
def parsePerm : List Char → Option MountPermission
  | ['r', 'o'] => some MountPermission.read_only
  | ['r', 'w'] => some MountPermission.read_write
  | _ => none

theorem parsePerm_permChars (p : MountPermission) : parsePerm (permChars p) = some p := by
  cases p <;> rfl

/-- Modelled from the spec: a share value is either a single decimal
(flat resource classes) or a nested device-id → decimal mapping
(accelerator classes). -/
inductive ShareValue where
  | flat (value : DecShare)
  | nested (devices : List (Nat × DecShare))
deriving DecidableEq

/-- Modelled from the spec: the `KernelResourceSpec` value object of
`ai/backend/agent/resources.py` (absent from the source tree): NUMA
node, core set, memory limit, scratch disk size, ordered shares mapping
and ordered mount list. -/
structure KernelResourceSpec where
  numa_node : Nat
  cpu_set : List Nat
  memory_limit : Nat
  scratch_disk_size : Nat
  shares : List (String × ShareValue)
  mounts : List Mount
deriving DecidableEq

/-- A natural number as a text line. -/
def renderNatS (n : Nat) : String := ⟨natToDigits n⟩

/-- A decimal share as a text line. -/
def renderDecS (d : DecShare) : String := ⟨renderDec d⟩

/-- A nested device share entry as a `deviceid:decimal` line. -/
def renderDevS (p : Nat × DecShare) : String := ⟨natToDigits p.1 ++ ':' :: renderDec p.2⟩

/-- A mount as its compact `source:destination:mode` triple line. -/
def renderMountS (mt : Mount) : String :=
  ⟨mt.host_path.data ++ ':' :: mt.container_path.data ++ ':' :: permChars mt.permission⟩

/-- The lines of one shares-mapping entry: key line, kind tag line, then
the value lines. -/
def writeShareLines : String × ShareValue → List String
  | (k, ShareValue.flat v) => [k, "F", renderDecS v]
  | (k, ShareValue.nested devs) => [k, "N", renderNatS devs.length] ++ devs.map renderDevS

/-- Modelled from the spec: serialize a spec to its persisted textual
form (`KernelResourceSpec.write_to_file`), as a list of text lines. -/
def write_to_file (spec : KernelResourceSpec) : List String :=
  [renderNatS spec.numa_node, renderNatS spec.cpu_set.length]
  ++ spec.cpu_set.map renderNatS
  ++ [renderNatS spec.memory_limit, renderNatS spec.scratch_disk_size,
      renderNatS spec.shares.length]
  ++ (spec.shares.map writeShareLines).flatten
  ++ [renderNatS spec.mounts.length]
  ++ spec.mounts.map renderMountS

/-- Parse a digit-string line (structured parse failure on anything
else). -/
def parseNatChars (l : List Char) : Option Nat :=
  if l ≠ [] ∧ l.all isDigitB = true then some (digitsToNat l) else none

/-- Consume one natural-number line. -/
def readNatL : List String → Option (Nat × List String)
  | [] => none
  | s :: rest => (parseNatChars s.data).map (fun v => (v, rest))

/-- Consume one decimal-share line. -/
def readDecL : List String → Option (DecShare × List String)
  | [] => none
  | s :: rest => (parseDec s.data).map (fun v => (v, rest))

/-- Consume one `deviceid:decimal` line. -/
def readDevL : List String → Option ((Nat × DecShare) × List String)
  | [] => none
  | s :: rest =>
    match splitOnCh ':' s.data with
    | [a, b] =>
      match parseNatChars a, parseDec b with
      | some nv, some dv => some ((nv, dv), rest)
      | _, _ => none
    | _ => none

/-- Consume one mount triple line. -/
def readMountL : List String → Option (Mount × List String)
  | [] => none
  | s :: rest =>
    match splitOnCh ':' s.data with
    | [a, b, c] => (parsePerm c).map (fun p => (⟨⟨a⟩, ⟨b⟩, p⟩, rest))
    | _ => none

/-- Consume a fixed number of records with a given record reader. -/
def readCount {α : Type} (f : List String → Option (α × List String)) :
    Nat → List String → Option (List α × List String)
  | 0, ls => some ([], ls)
  | k + 1, ls =>
    match f ls with
    | none => none
    | some (x, ls1) =>
      match readCount f k ls1 with
      | none => none
      | some (xs, ls2) => some (x :: xs, ls2)

/-- Consume one shares-mapping entry: key line, kind tag line, value
lines. -/
def readShare : List String → Option ((String × ShareValue) × List String)
  | key :: tag :: rest =>
    if tag = "F" then
      match readDecL rest with
      | some (v, rest2) => some ((key, ShareValue.flat v), rest2)
      | none => none
    else if tag = "N" then
      match readNatL rest with
      | some (cnt, rest2) =>
        match readCount readDevL cnt rest2 with
        | some (devs, rest3) => some ((key, ShareValue.nested devs), rest3)
        | none => none
      | none => none
    else none
  | _ => none

/-- Modelled from the spec: deserialize a spec from its persisted
textual form (`KernelResourceSpec.read_from_file`); a malformed record
yields `none` and never a partially populated spec. -/
def read_from_file (ls : List String) : Option KernelResourceSpec :=
  match readNatL ls with
  | none => none
  | some (numa, ls1) =>
    match readNatL ls1 with
    | none => none
    | some (ncpu, ls2) =>
      match readCount readNatL ncpu ls2 with
      | none => none
      | some (cpus, ls3) =>
        match readNatL ls3 with
        | none => none
        | some (mem, ls4) =>
          match readNatL ls4 with
          | none => none
          | some (scratch, ls5) =>
            match readNatL ls5 with
            | none => none
            | some (nsh, ls6) =>
              match readCount readShare nsh ls6 with
              | none => none
              | some (shares, ls7) =>
                match readNatL ls7 with
                | none => none
                | some (nmt, ls8) =>
                  match readCount readMountL nmt ls8 with
                  | none => none
                  | some (mounts, _) =>
                    some ⟨numa, cpus, mem, scratch, shares, mounts⟩

/-- A spec the serializer can faithfully persist: a non-empty core set,
and mount paths free of the `:` delimiter of the mandated compact
triple form. -/
def ValidSpec (spec : KernelResourceSpec) : Prop :=
  spec.cpu_set ≠ [] ∧
    ∀ mt ∈ spec.mounts, ':' ∉ mt.host_path.data ∧ ':' ∉ mt.container_path.data

instance (spec : KernelResourceSpec) : Decidable (ValidSpec spec) := by
  unfold ValidSpec
  infer_instance

theorem parseNatChars_natToDigits (n : Nat) : parseNatChars (natToDigits n) = some n := by
  rcases natToDigits_spec n with ⟨hne, hdig, hval⟩
  unfold parseNatChars
  rw [if_pos ⟨hne, List.all_eq_true.mpr hdig⟩, hval]

theorem readNatL_render (n : Nat) (rest : List String) :
    readNatL (renderNatS n :: rest) = some (n, rest) := by
  show (parseNatChars (renderNatS n).data).map (fun v => (v, rest)) = some (n, rest)
  rw [show (renderNatS n).data = natToDigits n from rfl, parseNatChars_natToDigits]
  rfl

theorem readDecL_render (d : DecShare) (rest : List String) :
    readDecL (renderDecS d :: rest) = some (d, rest) := by
  show (parseDec (renderDecS d).data).map (fun v => (v, rest)) = some (d, rest)
  rw [show (renderDecS d).data = renderDec d from rfl, parseDec_renderDec]
  rfl

theorem natToDigits_no_colon (n : Nat) : ':' ∉ natToDigits n := fun hmem =>
  isDigitB_ne_colon _ ((natToDigits_spec n).2.1 _ hmem) rfl

theorem renderDec_no_colon (d : DecShare) : ':' ∉ renderDec d := by
  intro hmem
  unfold renderDec at hmem
  by_cases hs : d.scale = 0
  · rw [if_pos hs] at hmem
    exact natToDigits_no_colon _ hmem
  · rw [if_neg hs] at hmem
    rcases List.mem_append.mp hmem with h1 | h1
    · exact natToDigits_no_colon _ h1
    · rcases List.mem_cons.mp h1 with h2 | h2
      · exact absurd h2 (by decide)
      · rcases List.mem_append.mp h2 with h3 | h3
        · exact absurd (List.eq_of_mem_replicate h3) (by decide)
        · exact natToDigits_no_colon _ h3

theorem readDevL_render (p : Nat × DecShare) (rest : List String) :
    readDevL (renderDevS p :: rest) = some (p, rest) := by
  show (match splitOnCh ':' (renderDevS p).data with
    | [a, b] =>
      match parseNatChars a, parseDec b with
      | some nv, some dv => some ((nv, dv), rest)
      | _, _ => none
    | _ => none) = some (p, rest)
  rw [show (renderDevS p).data = natToDigits p.1 ++ ':' :: renderDec p.2 from rfl]
  rw [splitOnCh_append _ _ _ (natToDigits_no_colon p.1),
    splitOnCh_no_sep _ _ (renderDec_no_colon p.2)]
  show (match parseNatChars (natToDigits p.1), parseDec (renderDec p.2) with
    | some nv, some dv => some ((nv, dv), rest)
    | _, _ => none) = some (p, rest)
  rw [parseNatChars_natToDigits, parseDec_renderDec]

theorem readMountL_render (mt : Mount) (rest : List String)
    (h1 : ':' ∉ mt.host_path.data) (h2 : ':' ∉ mt.container_path.data) :
    readMountL (renderMountS mt :: rest) = some (mt, rest) := by
  have hperm : ':' ∉ permChars mt.permission := by
    cases mt.permission <;> decide
  show (match splitOnCh ':' (renderMountS mt).data with
    | [a, b, c] => (parsePerm c).map (fun p => (⟨⟨a⟩, ⟨b⟩, p⟩, rest))
    | _ => none) = some (mt, rest)
  rw [show (renderMountS mt).data =
    (mt.host_path.data ++ ':' :: mt.container_path.data) ++
      ':' :: permChars mt.permission from rfl]
  rw [List.append_assoc, List.cons_append]
  rw [splitOnCh_append _ _ _ h1, splitOnCh_append _ _ _ h2,
    splitOnCh_no_sep _ _ hperm]
  show ((parsePerm (permChars mt.permission)).map
    (fun p => ((⟨⟨mt.host_path.data⟩, ⟨mt.container_path.data⟩, p⟩ : Mount), rest))) =
      some (mt, rest)
  rw [parsePerm_permChars]
  rfl

theorem readCount_exact {α : Type} (f : List String → Option (α × List String))
    (render : α → List String) (items : List α)
    (h : ∀ a ∈ items, ∀ r, f (render a ++ r) = some (a, r)) :
    ∀ rest, readCount f items.length ((items.map render).flatten ++ rest) =
      some (items, rest) := by
  induction items with
  | nil => intro rest; rfl
  | cons a as ih =>
    intro rest
    show readCount f (as.length + 1) (((a :: as).map render).flatten ++ rest) =
      some (a :: as, rest)
    rw [List.map_cons, List.flatten_cons, List.append_assoc]
    show (match f (render a ++ ((as.map render).flatten ++ rest)) with
      | none => none
      | some (x, ls1) =>
        match readCount f as.length ls1 with
        | none => none
        | some (xs, ls2) => some (x :: xs, ls2)) = some (a :: as, rest)
    rw [h a (List.mem_cons_self _ _) _]
    show (match readCount f as.length ((as.map render).flatten ++ rest) with
      | none => none
      | some (xs, ls2) => some (a :: xs, ls2)) = some (a :: as, rest)
    rw [ih (fun x hx r => h x (List.mem_cons_of_mem _ hx) r) rest]

theorem flatten_map_singleton {α β : Type} (g : α → β) (xs : List α) :
    (xs.map (fun x => [g x])).flatten = xs.map g := by
  induction xs with
  | nil => rfl
  | cons a as ih => simp [ih]

theorem readShare_render (p : String × ShareValue) (rest : List String) :
    readShare (writeShareLines p ++ rest) = some (p, rest) := by
  rcases p with ⟨k, v⟩
  cases v with
  | flat d =>
    show readShare (k :: "F" :: renderDecS d :: rest) = some ((k, ShareValue.flat d), rest)
    simp only [readShare]
    rw [if_pos trivial, readDecL_render]
  | nested devs =>
    have hdev : readCount readDevL devs.length (devs.map renderDevS ++ rest) =
        some (devs, rest) := by
      have := readCount_exact readDevL (fun q => [renderDevS q]) devs
        (fun a _ r2 => readDevL_render a r2) rest
      rwa [flatten_map_singleton] at this
    show readShare (k :: "N" :: renderNatS devs.length ::
      (devs.map renderDevS ++ rest)) = some ((k, ShareValue.nested devs), rest)
    simp only [readShare]
    rw [if_pos trivial, readNatL_render]
    show (match readCount readDevL devs.length (devs.map renderDevS ++ rest) with
      | some (devs2, rest3) => some ((k, ShareValue.nested devs2), rest3)
      | none => none) = some ((k, ShareValue.nested devs), rest)
    rw [hdev]

/-! ## Claim C2: serialize/deserialize round trip -/

/-- C2, amended: for every `KernelResourceSpec` with a non-empty core
set (sizes non-negative by construction, arbitrary shares mapping
possibly holding nested device-id → decimal maps) whose mount paths
avoid the `:` field delimiter of the mandated
`source:destination:mode` mount form, deserializing the result of
serializing yields the original spec exactly: every
arbitrary-precision decimal share and the mount list order are
preserved, with no pass through a binary float. A path holding `:`
breaks the round trip, so the proviso is necessary. -/
theorem C2_spec_write_read_roundtrip :
    ∀ spec : KernelResourceSpec, ValidSpec spec →
      read_from_file (write_to_file spec) = some spec := by
  intro spec hv
  obtain ⟨-, hmounts⟩ := hv
  have hcpu : ∀ r, readCount readNatL spec.cpu_set.length
      (spec.cpu_set.map renderNatS ++ r) = some (spec.cpu_set, r) := by
    intro r
    have := readCount_exact readNatL (fun n => [renderNatS n]) spec.cpu_set
      (fun a _ r2 => readNatL_render a r2) r
    rwa [flatten_map_singleton] at this
  have hsh : ∀ r, readCount readShare spec.shares.length
      ((spec.shares.map writeShareLines).flatten ++ r) = some (spec.shares, r) := by
    intro r
    exact readCount_exact readShare writeShareLines spec.shares
      (fun a _ r2 => readShare_render a r2) r
  have hmt0 : readCount readMountL spec.mounts.length
      (spec.mounts.map renderMountS) = some (spec.mounts, []) := by
    have := readCount_exact readMountL (fun mt => [renderMountS mt]) spec.mounts
      (fun a ha r2 => readMountL_render a r2 (hmounts a ha).1 (hmounts a ha).2) []
    rw [flatten_map_singleton] at this
    rwa [List.append_nil] at this
  simp only [write_to_file, List.append_assoc, List.cons_append, List.nil_append]
  simp only [read_from_file, readNatL_render, hcpu, hsh, hmt0]

/-- The concrete spec of the test fixture: numa node 99, cores {1,4,9},
a 128 MiB memory limit, nested cuda device shares, and one read-only and
one read-write mount. -/
def sampleSpec : KernelResourceSpec :=
  { numa_node := 99
    cpu_set := [1, 4, 9]
    memory_limit := 128 * 2 ^ 20
    scratch_disk_size := 91124
    shares := [(("_cpu"), ShareValue.flat ⟨47, 2⟩),
               (("_mem"), ShareValue.flat ⟨121, 2⟩),
               (("_gpu"), ShareValue.flat ⟨53, 2⟩),
               (("cuda"), ShareValue.nested [(2, ⟨33, 2⟩), (5, ⟨2, 1⟩)])]
    mounts := [⟨("/home/user/mydata"), ("/home/work/mydata"), MountPermission.read_only⟩,
               ⟨("/home/user/mypkgs"), ("/home/work/.local"), MountPermission.read_write⟩] }

theorem C2_spec_write_read_roundtrip_witness :
    read_from_file (write_to_file sampleSpec) = some sampleSpec :=
  C2_spec_write_read_roundtrip sampleSpec (by decide)

/-- A spec that is valid in the broad sense (non-empty core set,
non-negative sizes, ordered mount list) but whose mount host path
contains the `:` character that the mandated `source:destination:mode`
mount form uses as its field delimiter. -/
def colonSpec : KernelResourceSpec :=
  { numa_node := 0
    cpu_set := [0]
    memory_limit := 0
    scratch_disk_size := 0
    shares := []
    mounts := [⟨("a:b"), ("c"), MountPermission.read_only⟩] }

/-- C2 counterexample: the round trip does not hold for every valid spec
as the claim defines validity. `colonSpec` has a non-empty core set and
an ordered mount list, yet its host path holds a `:`; the serialized
mount line then splits into four fields, deserialization fails, and
`read_from_file (write_to_file colonSpec)` is not `some colonSpec`. -/
theorem C2_spec_write_read_counterexample :
    colonSpec.cpu_set ≠ [] ∧
      read_from_file (write_to_file colonSpec) ≠ some colonSpec := by
  decide
